import Mathlib

/-!
Verification development for the gopherhal chatbot core (package `ghal` plus
the snapshot codec): a shallow embedding of the data model, the learning
algorithm `AddSentence`, the generation walk `makeSentence`, the reply scorer
`MakeReply`, and the `Save`/`LoadBrain` snapshot codec, together with theorems
settling the specification claims about them.

Modelling conventions:
* Go hash sets (`WordSet`, `chainSet`) become `Finset`.
* Go maps to sets (`wordChains`, `wordsBefore`, `wordsAfter`) become total
  functions into `Finset`, with a missing key represented by the empty set
  (a missing key and a present-but-empty entry are observationally equal in
  the Go code: both iterate zero elements and have length 0).
* Randomness (`rand.Intn`, `ChooseOneRandom`, Go map iteration order) is
  modelled by explicit oracle parameters: draw streams `Nat → Nat`, pick
  functions on sets, and enumeration lists.
* The potentially unbounded generation loops take a fuel parameter; fuel
  exhaustion is a distinguished outcome, and `ChooseOneRandom` on an empty
  set (a Go panic) is a distinguished outcome as well.
* Machine integers (`int`, `int64`/`fIndex`) are modelled as `Int`; the
  values involved (lengths, indices) never approach overflow.
-/

namespace GHal

/-- Word from ghal/sentence.go: an annotated token `{Tag, Text string}`.
Two Words are equal iff both fields match exactly. -/
structure Word where
  tag : String
  text : String
deriving DecidableEq

/-- The zero value `Word{}` of Go: both fields empty. -/
def emptyWord : Word := ⟨"", ""⟩

instance : Inhabited Word := ⟨emptyWord⟩

/-- `const chainLen = 4` from ghal/chain.go. -/
def chainLen : Nat := 4

/-- `const continueChance = 128` from ghal/brain.go. -/
def continueChance : Nat := 128

/-- chain from ghal/chain.go: `type chain [chainLen]Word`, a fixed 4-tuple. -/
structure chain where
  w0 : Word
  w1 : Word
  w2 : Word
  w3 : Word
deriving DecidableEq

/-- The ordered list of the four words of a chain (Go `chn[:]`). -/
def chain.toList (c : chain) : List Word := [c.w0, c.w1, c.w2, c.w3]

/-- The zero value of Go's `chain` type: four zero-value Words. -/
def zeroChain : chain := ⟨emptyWord, emptyWord, emptyWord, emptyWord⟩

/-- makeChain from ghal/chain.go: copies the words of a 4-element slice into
a chain.  (The Go function panics on a slice whose length is not 4; at every
call site in the repository the length is exactly 4, so the out-of-range
default below is never read there.) -/
def makeChain (ws : List Word) : chain :=
  ⟨ws.getD 0 emptyWord, ws.getD 1 emptyWord, ws.getD 2 emptyWord, ws.getD 3 emptyWord⟩

/-- PushBefore from ghal/chain.go: shift right, dropping the last word and
placing the new word first. -/
def chain.PushBefore (c : chain) (w : Word) : chain := ⟨w, c.w0, c.w1, c.w2⟩

/-- PushAfter from ghal/chain.go: shift left, dropping the first word and
placing the new word last. -/
def chain.PushAfter (c : chain) (w : Word) : chain := ⟨c.w1, c.w2, c.w3, w⟩

/-- `IsNoun` from ghal/sentence.go: tag is one of NN, NNS, NNP, NNPS. -/
def Word.IsNoun (w : Word) : Bool :=
  w.tag == "NN" || w.tag == "NNS" || w.tag == "NNP" || w.tag == "NNPS"

/-- `IsProperNoun` from ghal/sentence.go: tag is NNP or NNPS. -/
def Word.IsProperNoun (w : Word) : Bool :=
  w.tag == "NNP" || w.tag == "NNPS"

/-- Sentence from ghal/sentence.go: `type Sentence []Word`. -/
abbrev Sentence := List Word

/-- `Sentence.Words`: the set of distinct words of the sentence (the Go loop
adds every word of the slice to a fresh set). -/
def Sentence.Words (s : Sentence) : Finset Word := s.toFinset

/-- `Sentence.Nouns`: the set of distinct words of the sentence satisfying
`IsNoun`. -/
def Sentence.Nouns (s : Sentence) : Finset Word :=
  (s.filter (fun w => w.IsNoun)).toFinset

/-- `Sentence.ProperNouns`: the set of distinct words satisfying
`IsProperNoun`. -/
def Sentence.ProperNouns (s : Sentence) : Finset Word :=
  (s.filter (fun w => w.IsProperNoun)).toFinset

/-- Brain from ghal/brain.go.  The `sync.RWMutex` is not modelled: every
claim in scope is about the sequential behaviour of a single operation,
each of which holds the lock for its whole duration. -/
@[ext]
structure Brain where
  wordChains : Word → Finset chain
  chains : Finset chain
  wordsAfter : chain → Finset Word
  wordsBefore : chain → Finset Word
  startChains : Finset chain
  endChains : Finset chain

/-- NewBrain from ghal/brain.go: the empty brain. -/
def NewBrain : Brain :=
  { wordChains := fun _ => ∅
    chains := ∅
    wordsAfter := fun _ => ∅
    wordsBefore := fun _ => ∅
    startChains := ∅
    endChains := ∅ }

/-- Number of chain windows of a sentence: Go's
`maxIdx := len(s) - (chainLen - 1)` in AddSentence. -/
def numWin (s : Sentence) : Nat := s.length - (chainLen - 1)

/-- The window of `chainLen` consecutive words of `s` starting at `i`,
written with positional reads (used to state properties of the windows). -/
def window (s : Sentence) (i : Nat) : chain :=
  ⟨s.getD i emptyWord, s.getD (i + 1) emptyWord,
   s.getD (i + 2) emptyWord, s.getD (i + 3) emptyWord⟩

/-- The body of the AddSentence loop from ghal/brain.go for window index `i`:
build the chain `makeChain(s[i : i+chainLen])`, add it to `chains`, add it to
`wordChains[w]` for each of its words (the Go 4-iteration loop, written as the
pointwise function it computes), then record start/predecessor and
end/successor information.  `s[i-1]` and `s[i+chainLen]` are written with
`getD`; at the guarded call sites those indices are in range. -/
def addChainStep (s : Sentence) (b : Brain) (i : Nat) : Brain :=
  let chn := makeChain ((s.drop i).take chainLen)
  let b1 : Brain :=
    { b with
      chains := insert chn b.chains
      wordChains := fun w =>
        if w ∈ chn.toList then insert chn (b.wordChains w) else b.wordChains w }
  let b2 : Brain :=
    if i = 0 then
      { b1 with startChains := insert chn b1.startChains }
    else
      { b1 with wordsBefore := fun c =>
          if c = chn then insert (s.getD (i - 1) emptyWord) (b1.wordsBefore c)
          else b1.wordsBefore c }
  if i = numWin s - 1 then
    { b2 with endChains := insert chn b2.endChains }
  else
    { b2 with wordsAfter := fun c =>
        if c = chn then insert (s.getD (i + chainLen) emptyWord) (b2.wordsAfter c)
        else b2.wordsAfter c }

/-- AddSentence from ghal/brain.go: sentences shorter than `chainLen` are
silently ignored; otherwise the loop body runs for `i = 0 .. maxIdx-1`. -/
def AddSentence (b : Brain) (s : Sentence) : Brain :=
  if s.length < chainLen then b
  else (List.range (numWin s)).foldl (addChainStep s) b

/-- AddSentences from ghal/brain.go: AddSentence applied to each sentence in
order. -/
def AddSentences (b : Brain) (ss : List Sentence) : Brain :=
  ss.foldl AddSentence b

/-- One learning pass over window indices `0 .. n-1` (the AddSentence loop,
cut off after `n` iterations, for induction). -/
def addLoop (s : Sentence) (b : Brain) (n : Nat) : Brain :=
  (List.range n).foldl (addChainStep s) b

/-- Outcome of one of the two extension walks of makeSentence. -/
inductive WalkOut where
  | finished : List Word → WalkOut
  | panicked : WalkOut
  | fuelOut : WalkOut
deriving DecidableEq

/-- The backward-extension loop of makeSentence (ghal/brain.go).  `draw`
models the `rand.Intn(256)` draws and `pick` models
`WordSet.ChooseOneRandom`, both indexed by the iteration counter `step`.
A `pick` on an empty set is the Go panic, reported as `.panicked`.  The Go
loop has no bound; `fuel` makes the model total, with exhaustion reported
as `.fuelOut`.  The accumulator is the Go `before` slice (in reverse
sentence order, exactly as built by the Go code). -/
def backWalk (b : Brain) (draw : Nat → Nat) (pick : Nat → Finset Word → Word) :
    Nat → Nat → chain → List Word → WalkOut
  | 0, _, _, _ => .fuelOut
  | fuel + 1, step, current, acc =>
    if current ∈ b.startChains ∧
        (b.wordsBefore current = ∅ ∨ continueChance ≤ draw step) then
      .finished acc
    else if b.wordsBefore current = ∅ then
      .panicked
    else
      let w := pick step (b.wordsBefore current)
      backWalk b draw pick fuel (step + 1) (current.PushBefore w) (acc ++ [w])

/-- The forward-extension loop of makeSentence, symmetric to `backWalk`
(endChains, wordsAfter, PushAfter, the `after` slice). -/
def forwardWalk (b : Brain) (draw : Nat → Nat) (pick : Nat → Finset Word → Word) :
    Nat → Nat → chain → List Word → WalkOut
  | 0, _, _, _ => .fuelOut
  | fuel + 1, step, current, acc =>
    if current ∈ b.endChains ∧
        (b.wordsAfter current = ∅ ∨ continueChance ≤ draw step) then
      .finished acc
    else if b.wordsAfter current = ∅ then
      .panicked
    else
      let w := pick step (b.wordsAfter current)
      forwardWalk b draw pick fuel (step + 1) (current.PushAfter w) (acc ++ [w])

/-- Outcome of makeSentence: a constructed sentence, the Go `nil` result, a
Go panic, or fuel exhaustion (the Go loops are unbounded). -/
inductive GenResult where
  | made : List Word → GenResult
  | nil : GenResult
  | panicked : GenResult
  | fuelOut : GenResult
deriving DecidableEq

/-- The seed-chain ("middle chain") selection of makeSentence: the
mustBeEnd scan takes the first enumerated chain that is an end chain with
the keyword last, BUT when nothing matches it leaves the zero-value chain
(the Go code has no foundOne check in this branch); the mustBeStart scan
returns none (Go nil) when nothing matches; otherwise one chain is picked
at random from `wordChains[w]`. -/
def chooseMiddle (b : Brain) (w : Word) (mustBeStart mustBeEnd : Bool)
    (enum : List chain) (pickMid : Finset chain → chain) : Option chain :=
  if mustBeEnd then
    some ((enum.find? (fun c =>
      decide (c.w3 = w ∧ c ∈ b.endChains))).getD zeroChain)
  else if mustBeStart then
    enum.find? (fun c => decide (c.w0 = w ∧ c ∈ b.startChains))
  else
    some (pickMid (b.wordChains w))

/-- makeSentence from ghal/brain.go.  `enum` models the Go map iteration
order over `b.wordChains w` used by the mustBeEnd/mustBeStart scans;
`pickMid` models `chainSet.ChooseOneRandom`. -/
def makeSentence (b : Brain) (w : Word) (mustBeStart mustBeEnd : Bool)
    (enum : List chain) (pickMid : Finset chain → chain)
    (drawB : Nat → Nat) (pickB : Nat → Finset Word → Word)
    (drawA : Nat → Nat) (pickA : Nat → Finset Word → Word)
    (fuel : Nat) : GenResult :=
  let chains := b.wordChains w
  if chains = ∅ then .nil
  else
    match chooseMiddle b w mustBeStart mustBeEnd enum pickMid with
    | none => .nil
    | some mid =>
      match backWalk b drawB pickB fuel 0 mid [] with
      | .fuelOut => .fuelOut
      | .panicked => .panicked
      | .finished before =>
        match forwardWalk b drawA pickA fuel 0 mid [] with
        | .fuelOut => .fuelOut
        | .panicked => .panicked
        | .finished after =>
          .made (before.reverse ++ mid.toList ++ after)

/-- The union of `Words` over the input sentences of MakeReply
(ghal/brain.go builds it with repeated `Union`). -/
def replyAllWords (ss : List Sentence) : Finset Word :=
  ss.foldl (fun st s => st ∪ s.Words) ∅

/-- The union of `Nouns` over the input sentences of MakeReply. -/
def replyNouns (ss : List Sentence) : Finset Word :=
  ss.foldl (fun st s => st ∪ s.Nouns) ∅

/-- The union of `ProperNouns` over the input sentences of MakeReply. -/
def replyProperNouns (ss : List Sentence) : Finset Word :=
  ss.foldl (fun st s => st ∪ s.ProperNouns) ∅

/-- Keyword selection of MakeReply: proper nouns, falling back to the noun
set when fewer than 2 proper nouns are present. -/
def replyKeywords (ss : List Sentence) : Finset Word :=
  if (replyProperNouns ss).card < 2 then replyNouns ss else replyProperNouns ss

/-- The per-word points of the MakeReply scoring loop. -/
def pts (nouns properNouns allWords : Finset Word) (w : Word) : Int :=
  (if w.IsProperNoun then 2 else 0) + (if w ∈ nouns then 3 else 0) +
    (if w ∈ properNouns then 4 else 0) + (if w ∈ allWords then 1 else 0)

/-- The score MakeReply assigns to a candidate sentence: the scoring loop
accumulates the per-word points over the words of the candidate. -/
def score (nouns properNouns allWords : Finset Word) (s : Sentence) : Int :=
  s.foldl (fun acc w => acc + pts nouns properNouns allWords w) 0

/-- The selection loop of MakeReply: `bestScore` starts at -1 and a candidate
replaces the current best only with a strictly greater score. -/
def selectBest (nouns properNouns allWords : Finset Word)
    (cands : List Sentence) : Option Sentence :=
  (cands.foldl
    (fun best s =>
      if best.2 < score nouns properNouns allWords s
      then ((some s : Option Sentence), score nouns properNouns allWords s)
      else best)
    ((none : Option Sentence), (-1 : Int))).1

/-- The candidate sentences of MakeReply: one generation attempt per
enumerated keyword, keeping the non-empty results in enumeration order. -/
def replyCands (gen : Word → Sentence) (kwEnum : Finset Word → List Word)
    (ss : List Sentence) : List Sentence :=
  ((kwEnum (replyKeywords ss)).map gen).filter (fun s => 0 < s.length)

/-- MakeReply from ghal/brain.go.  `gen` models the call
`b.MakeSentenceWithKeyword w` (generation with all of its internal
randomness); `kwEnum` models the Go map iteration order over the keyword
set. -/
def MakeReply (gen : Word → Sentence) (kwEnum : Finset Word → List Word)
    (ss : List Sentence) : Option Sentence :=
  if replyKeywords ss = ∅ then none
  else
    match replyCands gen kwEnum ss with
    | [] => none
    | [s] => some s
    | _ => selectBest (replyNouns ss) (replyProperNouns ss) (replyAllWords ss)
        (replyCands gen kwEnum ss)

/-! ### Snapshot codec (Save / LoadBrain from main.go's ghal persistence file) -/

/-- fWord from the codec: the on-disk form of a Word. -/
structure fWord where
  tag : String
  text : String
deriving DecidableEq

/-- Conversion used by Save: `fWord{Tag: w.Tag, Text: w.Text}`. -/
def toFWord (w : Word) : fWord := ⟨w.tag, w.text⟩

/-- fChain from the codec: word-table indices of the chain's words, of its
recorded successor and predecessor words, and the start/end flags.
`fIndex` is int64, modelled as `Int`. -/
structure fChain where
  words : List Int
  wordsAfter : List Int
  wordsBefore : List Int
  canStart : Bool
  canEnd : Bool
deriving DecidableEq

/-- fBrain from the codec: declared chain length, chain records, and the
deduplicated word table. -/
structure fBrain where
  chainLen : Int
  chains : List fChain
  words : List fWord
deriving DecidableEq

/-- The interning function `wordIdx` of Save: return the index of the word
in the table if it is already present, otherwise append it.  (Go keeps a
side map `wordIdxs` whose content is exactly the index of each table entry;
the model looks the index up in the table itself.) -/
def internWord : List fWord → Word → List fWord × Int
  | [], w => ([toFWord w], 0)
  | fw :: rest, w =>
    if fw = toFWord w then (fw :: rest, 0)
    else
      let r := internWord rest w
      (fw :: r.1, r.2 + 1)

/-- Interning a list of words in order, returning the extended table and the
index list (the Go loops that fill `fc.Words`, `fc.WordsAfter`,
`fc.WordsBefore`). -/
def internWords (tbl : List fWord) : List Word → List fWord × List Int
  | [] => (tbl, [])
  | w :: ws =>
    let r := internWord tbl w
    let rs := internWords r.1 ws
    (rs.1, r.2 :: rs.2)

/-- The per-chain encoding step of Save: intern the chain's 4 words, then
the enumerations of `wordsAfter[c]` and `wordsBefore[c]` (`ordA c`, `ordB c`
model the Go map iteration order over those sets), and record the start/end
flags. -/
def saveChain (b : Brain) (ordA ordB : chain → List Word)
    (tbl : List fWord) (c : chain) : List fWord × fChain :=
  let rw := internWords tbl c.toList
  let ra := internWords rw.1 (ordA c)
  let rb := internWords ra.1 (ordB c)
  (rb.1, ⟨rw.2, ra.2, rb.2, decide (c ∈ b.startChains), decide (c ∈ b.endChains)⟩)

/-- The chain-encoding loop of Save over the enumeration `ord` of
`b.chains`, threading the word table. -/
def saveChains (b : Brain) (ordA ordB : chain → List Word) :
    List fWord → List chain → List fWord × List fChain
  | tbl, [] => (tbl, [])
  | tbl, c :: cs =>
    let rc := saveChain b ordA ordB tbl c
    let rs := saveChains b ordA ordB rc.1 cs
    (rs.1, rc.2 :: rs.2)

/-- Save from the codec: the structured record it encodes (`fb.ChainLen =
chainLen`, the chain records, the word table).  `ord` models the Go map
iteration order over `b.chains`. -/
def Save (b : Brain) (ord : List chain) (ordA ordB : chain → List Word) : fBrain :=
  let r := saveChains b ordA ordB [] ord
  ⟨(chainLen : Int), r.2, r.1⟩

/-- `wordByIdx` from LoadBrain: an out-of-range index (negative or past the
table) decodes to the zero-value Word rather than failing. -/
def wordByIdx (tbl : List fWord) (i : Int) : Word :=
  if tbl.length ≤ i.toNat ∨ i < 0 then emptyWord
  else
    let fw := tbl.getD i.toNat ⟨"", ""⟩
    ⟨fw.tag, fw.text⟩

/-- The per-record decoding step of LoadBrain: a record whose word-index
list does not have length `chainLen` is a fatal error; otherwise the chain
is rebuilt from the decoded words and every index structure is updated.
(The Go code also pre-creates empty `wordsAfter`/`wordsBefore` entries; in
the total-function model that is a no-op.) -/
def loadChain (tbl : List fWord) (b : Brain) (fc : fChain) : Except String Brain :=
  if fc.words.length ≠ chainLen then .error "chain has wrong length"
  else
    let c := makeChain (fc.words.map (wordByIdx tbl))
    let b1 : Brain :=
      { b with
        chains := insert c b.chains
        wordChains := fun w =>
          if w ∈ c.toList then insert c (b.wordChains w) else b.wordChains w }
    let b2 : Brain :=
      { b1 with
        wordsAfter := fun c2 =>
          if c2 = c then
            b1.wordsAfter c2 ∪ (fc.wordsAfter.map (wordByIdx tbl)).toFinset
          else b1.wordsAfter c2
        wordsBefore := fun c2 =>
          if c2 = c then
            b1.wordsBefore c2 ∪ (fc.wordsBefore.map (wordByIdx tbl)).toFinset
          else b1.wordsBefore c2 }
    let b3 : Brain :=
      if fc.canStart then { b2 with startChains := insert c b2.startChains } else b2
    let b4 : Brain :=
      if fc.canEnd then { b3 with endChains := insert c b3.endChains } else b3
    .ok b4

/-- The record loop of LoadBrain, aborting on the first bad record. -/
def loadChains (tbl : List fWord) : Brain → List fChain → Except String Brain
  | b, [] => .ok b
  | b, fc :: rest =>
    match loadChain tbl b fc with
    | .error e => .error e
    | .ok b2 => loadChains tbl b2 rest

/-- The structural part of LoadBrain, after msgpack decoding: the declared
chain length must equal `chainLen`, then the records are folded into a fresh
`NewBrain`. -/
def LoadBrainData (fb : fBrain) : Except String Brain :=
  if fb.chainLen ≠ (chainLen : Int) then .error "wrong chain length"
  else loadChains fb.words NewBrain fb.chains

/-- `fMagic = []byte("QWOK")` as byte values. -/
def fMagic : List Nat := [81, 87, 79, 75]

/-- LoadBrain from the codec, at the byte level: a stream shorter than 4
bytes or not starting with the magic is "not a brain file"; `unmarshal`
models the external msgpack decoder applied to the remaining payload. -/
def LoadBrain (unmarshal : List Nat → Option fBrain) (src : List Nat) :
    Except String Brain :=
  if src.length < 4 ∨ src.take 4 ≠ fMagic then .error "not a brain file"
  else
    match unmarshal (src.drop 4) with
    | none => .error "invalid brain file"
    | some fb => LoadBrainData fb

/-- The byte stream written by Save: the magic followed by the msgpack
encoding (`marshal` models the external msgpack encoder) of the record. -/
def SaveBytes (marshal : fBrain → List Nat) (b : Brain) (ord : List chain)
    (ordA ordB : chain → List Word) : List Nat :=
  fMagic ++ marshal (Save b ord ordA ordB)

/-! ### Invariants and auxiliary predicates -/

/-- The §3 Brain consistency invariant: every chain recorded anywhere is in
`chains` (a "key" of `wordsBefore`/`wordsAfter` is, in the total-function
model, a chain with a non-empty entry), and every chain of `chains` outside
`startChains` (resp. `endChains`) has a non-empty `wordsBefore` (resp.
`wordsAfter`) entry. -/
def BrainInv (b : Brain) : Prop :=
  (∀ c, (b.wordsBefore c).Nonempty → c ∈ b.chains) ∧
  (∀ c, (b.wordsAfter c).Nonempty → c ∈ b.chains) ∧
  b.startChains ⊆ b.chains ∧
  b.endChains ⊆ b.chains ∧
  (∀ c ∈ b.chains, c ∉ b.startChains → (b.wordsBefore c).Nonempty) ∧
  (∀ c ∈ b.chains, c ∉ b.endChains → (b.wordsAfter c).Nonempty)

/-- Backward-closure invariant upheld by AddSentence: stepping backward from
any recorded predecessor word again reaches a chain that either may start a
sentence or has a recorded predecessor.  This is what makes the backward
walk unable to get stuck. -/
def BackClosed (b : Brain) : Prop :=
  ∀ c w, w ∈ b.wordsBefore c →
    (c.PushBefore w ∈ b.startChains ∨ (b.wordsBefore (c.PushBefore w)).Nonempty)

/-- Termination of the backward walk from chain `c` under the given
draw/pick streams: some amount of fuel suffices to finish. -/
def BackTerminates (b : Brain) (draw : Nat → Nat)
    (pick : Nat → Finset Word → Word) (c : chain) : Prop :=
  ∃ n ws, backWalk b draw pick n 0 c [] = .finished ws

/-- A word-index list decodes (through the given table) to the given word
list, all indices in range. -/
def DecOk (tbl : List fWord) (ids : List Int) (ws : List Word) : Prop :=
  ids.map (wordByIdx tbl) = ws ∧ ∀ i ∈ ids, 0 ≤ i ∧ i.toNat < tbl.length

/-- A chain record correctly encodes, relative to the word table, the chain
`c` of Brain `b` together with the enumerations of its wordsAfter and
wordsBefore sets and its start/end flags. -/
def RecOk (tbl : List fWord) (b : Brain) (ordA ordB : chain → List Word)
    (c : chain) (fc : fChain) : Prop :=
  DecOk tbl fc.words c.toList ∧ DecOk tbl fc.wordsAfter (ordA c) ∧
    DecOk tbl fc.wordsBefore (ordB c) ∧
    fc.canStart = decide (c ∈ b.startChains) ∧
    fc.canEnd = decide (c ∈ b.endChains)

/-! ### Concrete inputs used by witnesses and counterexamples -/

/-- A plain test word. -/
def wA : Word := ⟨"X", "a"⟩
def wB : Word := ⟨"X", "b"⟩
def wC : Word := ⟨"X", "c"⟩
def wD : Word := ⟨"X", "d"⟩
def wE : Word := ⟨"X", "e"⟩
def wX : Word := ⟨"X", "x"⟩
def nounN1 : Word := ⟨"NN", "cat"⟩
def nounN2 : Word := ⟨"NN", "dog"⟩

/-- QuestionMark from ghal/sentence.go: `MakeWord(".", "?")`. -/
def QuestionMark : Word := ⟨".", "?"⟩

/-- The sentence of the C2 failing input. -/
def sC2 : Sentence := [wA, QuestionMark, wC, wD, wE]

/-- Brain for the C2 failing input: the single sentence `a ? c d e` teaches
the word `?` without any end chain ending in `?`. -/
def brainC2 : Brain := AddSentence NewBrain sC2

/-- An enumeration of `brainC2.wordChains QuestionMark` (its two windows). -/
def enumC2 : List chain := [window sC2 0, window sC2 1]

/-- A pickMid oracle that always answers the zero chain (never consulted in
the mustBeEnd scenario). -/
def pickMidZero : Finset chain → chain := fun _ => zeroChain

/-- A pick oracle that never looks at its set (used where picks are never
reached). -/
def pickNone : Nat → Finset Word → Word := fun _ _ => emptyWord

/-- First training sentence of the C5 counterexample. -/
def sC5a : Sentence := [wA, wB, wC, wD]

/-- Second training sentence of the C5 counterexample. -/
def sC5b : Sentence := [wX, wA, wB, wC, wD]

/-- Brain for the C5 counterexample: sentences `a b c d` and `x a b c d`
make `(a,b,c,d)` a start chain that also has the recorded predecessor `x`. -/
def brainC5 : Brain := AddSentence (AddSentence NewBrain sC5a) sC5b

/-- An enumeration of `brainC5.wordChains wA`. -/
def enumC5 : List chain := [window sC5a 0, window sC5b 0]

/-- A pickMid oracle answering the chain `(a,b,c,d)` when available. -/
def pickMidC5 : Finset chain → chain :=
  fun s => if window sC5a 0 ∈ s then window sC5a 0 else zeroChain

/-- The sentence of the C6 counterexample. -/
def sC6 : Sentence := [wA, wA, wA, wA, wA]

/-- Brain for the C6 counterexample: the sentence `a a a a a` makes
`(a,a,a,a)` a start chain whose `wordsBefore` contains `a` itself. -/
def brainC6 : Brain := AddSentence NewBrain sC6

/-- A pick oracle that returns `wX` whenever possible (used to drive
concrete walks). -/
def pickX : Nat → Finset Word → Word :=
  fun _ s => if wX ∈ s then wX else emptyWord

/-- A pick oracle that returns `wA` whenever possible. -/
def pickA0 : Nat → Finset Word → Word :=
  fun _ s => if wA ∈ s then wA else emptyWord

/-- A draw stream that always continues (draw value 0 < continueChance). -/
def drawLo : Nat → Nat := fun _ => 0

/-- A draw stream that always stops (draw value 255 ≥ continueChance). -/
def drawHi : Nat → Nat := fun _ => 255

/-- A canonical computable choice of an element of a nonempty word set,
used to discharge pick-validity hypotheses in witnesses. -/
noncomputable def chooseWord (s : Finset Word) : Word :=
  if h : s.Nonempty then h.choose else emptyWord

/-! ## Lemmas: windows and the AddSentence loop -/

theorem chooseWord_mem {s : Finset Word} (h : s.Nonempty) : chooseWord s ∈ s := by
  rw [chooseWord, dif_pos h]
  exact h.choose_spec

theorem getD_take_of_lt (l : List Word) (n k : Nat) (d : Word) (h : k < n) :
    (l.take n).getD k d = l.getD k d := by
  rcases Nat.lt_or_ge k l.length with hk | hk
  · rw [List.getD_eq_getElem _ _ (by simpa [Nat.lt_min] using ⟨h, hk⟩),
      List.getD_eq_getElem _ _ hk]
    simp
  · rw [List.getD_eq_default _ _ (by simp; omega),
      List.getD_eq_default _ _ hk]

theorem getD_drop (l : List Word) (i k : Nat) (d : Word) :
    (l.drop i).getD k d = l.getD (i + k) d := by
  rcases Nat.lt_or_ge (i + k) l.length with hk | hk
  · rw [List.getD_eq_getElem _ _ (by simp; omega), List.getD_eq_getElem _ _ hk]
    rw [List.getElem_drop]
  · rw [List.getD_eq_default _ _ (by simp; omega), List.getD_eq_default _ _ hk]

theorem window_eq (s : Sentence) (i : Nat) :
    makeChain ((s.drop i).take chainLen) = window s i := by
  unfold makeChain window chainLen
  congr 1
  · rw [getD_take_of_lt _ _ _ _ (by norm_num), getD_drop, Nat.add_zero]
  · rw [getD_take_of_lt _ _ _ _ (by norm_num), getD_drop]
  · rw [getD_take_of_lt _ _ _ _ (by norm_num), getD_drop]
  · rw [getD_take_of_lt _ _ _ _ (by norm_num), getD_drop]

theorem addChainStep_chains (s : Sentence) (b : Brain) (i : Nat) :
    (addChainStep s b i).chains = insert (window s i) b.chains := by
  rw [← window_eq]
  unfold addChainStep
  split <;> split <;> rfl

theorem addChainStep_wordChains (s : Sentence) (b : Brain) (i : Nat) (w : Word) :
    (addChainStep s b i).wordChains w =
      if w ∈ (window s i).toList then insert (window s i) (b.wordChains w)
      else b.wordChains w := by
  rw [← window_eq]
  unfold addChainStep
  split <;> split <;> rfl

theorem addChainStep_start (s : Sentence) (b : Brain) (i : Nat) :
    (addChainStep s b i).startChains =
      if i = 0 then insert (window s i) b.startChains else b.startChains := by
  rw [← window_eq]
  unfold addChainStep
  split <;> split <;> simp_all

theorem addChainStep_before (s : Sentence) (b : Brain) (i : Nat) (c : chain) :
    (addChainStep s b i).wordsBefore c =
      if i ≠ 0 ∧ c = window s i then
        insert (s.getD (i - 1) emptyWord) (b.wordsBefore c)
      else b.wordsBefore c := by
  rw [← window_eq]
  unfold addChainStep
  split <;> split <;> simp_all

theorem addChainStep_end (s : Sentence) (b : Brain) (i : Nat) :
    (addChainStep s b i).endChains =
      if i = numWin s - 1 then insert (window s i) b.endChains
      else b.endChains := by
  rw [← window_eq]
  unfold addChainStep
  split <;> split <;> simp_all

theorem addChainStep_after (s : Sentence) (b : Brain) (i : Nat) (c : chain) :
    (addChainStep s b i).wordsAfter c =
      if i ≠ numWin s - 1 ∧ c = window s i then
        insert (s.getD (i + chainLen) emptyWord) (b.wordsAfter c)
      else b.wordsAfter c := by
  rw [← window_eq]
  unfold addChainStep
  split <;> split <;> simp_all

theorem addLoop_succ (s : Sentence) (b : Brain) (n : Nat) :
    addLoop s b (n + 1) = addChainStep s (addLoop s b n) n := by
  unfold addLoop
  rw [List.range_succ, List.foldl_append]
  rfl

theorem addLoop_chains (s : Sentence) (b : Brain) (n : Nat) (c : chain) :
    c ∈ (addLoop s b n).chains ↔
      c ∈ b.chains ∨ ∃ i < n, window s i = c := by
  induction n with
  | zero => simp [addLoop]
  | succ n ih =>
    rw [addLoop_succ, addChainStep_chains, Finset.mem_insert, ih]
    constructor
    · rintro (h | h | ⟨i, hi, hw⟩)
      · exact Or.inr ⟨n, Nat.lt_succ_self n, h.symm⟩
      · exact Or.inl h
      · exact Or.inr ⟨i, Nat.lt_succ_of_lt hi, hw⟩
    · rintro (h | ⟨i, hi, hw⟩)
      · exact Or.inr (Or.inl h)
      · rcases Nat.lt_succ_iff_lt_or_eq.mp hi with hi | rfl
        · exact Or.inr (Or.inr ⟨i, hi, hw⟩)
        · exact Or.inl hw.symm

theorem addLoop_wordChains (s : Sentence) (b : Brain) (n : Nat) (w : Word)
    (c : chain) :
    c ∈ (addLoop s b n).wordChains w ↔
      c ∈ b.wordChains w ∨ ∃ i < n, window s i = c ∧ w ∈ c.toList := by
  induction n with
  | zero => simp [addLoop]
  | succ n ih =>
    rw [addLoop_succ, addChainStep_wordChains]
    constructor
    · intro h
      split at h
      · rcases Finset.mem_insert.mp h with rfl | h
        · exact Or.inr ⟨n, Nat.lt_succ_self n, rfl, by assumption⟩
        · rcases ih.mp h with h | ⟨i, hi, hw, hm⟩
          · exact Or.inl h
          · exact Or.inr ⟨i, Nat.lt_succ_of_lt hi, hw, hm⟩
      · rcases ih.mp h with h | ⟨i, hi, hw, hm⟩
        · exact Or.inl h
        · exact Or.inr ⟨i, Nat.lt_succ_of_lt hi, hw, hm⟩
    · intro h
      have base : c ∈ (addLoop s b n).wordChains w ∨ (window s n = c ∧ w ∈ c.toList) := by
        rcases h with h | ⟨i, hi, hw, hm⟩
        · exact Or.inl (ih.mpr (Or.inl h))
        · rcases Nat.lt_succ_iff_lt_or_eq.mp hi with hi | rfl
          · exact Or.inl (ih.mpr (Or.inr ⟨i, hi, hw, hm⟩))
          · exact Or.inr ⟨hw, hm⟩
      rcases base with h | ⟨hw, hm⟩
      · split
        · exact Finset.mem_insert_of_mem h
        · exact h
      · rw [if_pos (hw ▸ hm)]
        exact hw ▸ Finset.mem_insert_self _ _

theorem addLoop_start (s : Sentence) (b : Brain) (n : Nat) (c : chain) :
    c ∈ (addLoop s b n).startChains ↔
      c ∈ b.startChains ∨ (0 < n ∧ window s 0 = c) := by
  induction n with
  | zero => simp [addLoop]
  | succ n ih =>
    rw [addLoop_succ, addChainStep_start]
    split
    · subst_vars
      rw [Finset.mem_insert, ih]
      constructor
      · rintro (rfl | h | ⟨h, _⟩)
        · exact Or.inr ⟨Nat.lt_succ_self 0, rfl⟩
        · exact Or.inl h
        · omega
      · rintro (h | ⟨_, hw⟩)
        · exact Or.inr (Or.inl h)
        · exact Or.inl hw.symm
    · rw [ih]
      have hn : 0 < n := Nat.pos_of_ne_zero (by assumption)
      constructor
      · rintro (h | ⟨_, hw⟩)
        · exact Or.inl h
        · exact Or.inr ⟨Nat.lt_succ_of_lt hn, hw⟩
      · rintro (h | ⟨_, hw⟩)
        · exact Or.inl h
        · exact Or.inr ⟨hn, hw⟩

theorem addLoop_before (s : Sentence) (b : Brain) (n : Nat) (c : chain)
    (x : Word) :
    x ∈ (addLoop s b n).wordsBefore c ↔
      x ∈ b.wordsBefore c ∨
        ∃ i, 0 < i ∧ i < n ∧ window s i = c ∧ s.getD (i - 1) emptyWord = x := by
  induction n with
  | zero => simp [addLoop]
  | succ n ih =>
    rw [addLoop_succ, addChainStep_before]
    constructor
    · intro h
      split at h
      · rcases Finset.mem_insert.mp h with rfl | h
        · rename_i hcond
          exact Or.inr ⟨n, Nat.pos_of_ne_zero hcond.1, Nat.lt_succ_self n,
            hcond.2.symm, rfl⟩
        · rcases ih.mp h with h | ⟨i, hi0, hi, hw, hx⟩
          · exact Or.inl h
          · exact Or.inr ⟨i, hi0, Nat.lt_succ_of_lt hi, hw, hx⟩
      · rcases ih.mp h with h | ⟨i, hi0, hi, hw, hx⟩
        · exact Or.inl h
        · exact Or.inr ⟨i, hi0, Nat.lt_succ_of_lt hi, hw, hx⟩
    · intro h
      have base : x ∈ (addLoop s b n).wordsBefore c ∨
          (n ≠ 0 ∧ c = window s n ∧ s.getD (n - 1) emptyWord = x) := by
        rcases h with h | ⟨i, hi0, hi, hw, hx⟩
        · exact Or.inl (ih.mpr (Or.inl h))
        · rcases Nat.lt_succ_iff_lt_or_eq.mp hi with hi | rfl
          · exact Or.inl (ih.mpr (Or.inr ⟨i, hi0, hi, hw, hx⟩))
          · exact Or.inr ⟨Nat.pos_iff_ne_zero.mp hi0, hw.symm, hx⟩
      rcases base with h | ⟨hn0, hw, hx⟩
      · split
        · exact Finset.mem_insert_of_mem h
        · exact h
      · rw [if_pos ⟨hn0, hw⟩, ← hx]
        exact Finset.mem_insert_self _ _

theorem addLoop_end (s : Sentence) (b : Brain) (n : Nat) (c : chain) :
    c ∈ (addLoop s b n).endChains ↔
      c ∈ b.endChains ∨ (numWin s - 1 < n ∧ window s (numWin s - 1) = c) := by
  induction n with
  | zero => simp [addLoop]
  | succ n ih =>
    rw [addLoop_succ, addChainStep_end]
    split
    · subst_vars
      rw [Finset.mem_insert, ih]
      constructor
      · rintro (rfl | h | ⟨h, _⟩)
        · exact Or.inr ⟨Nat.lt_succ_self _, rfl⟩
        · exact Or.inl h
        · omega
      · rintro (h | ⟨_, hw⟩)
        · exact Or.inr (Or.inl h)
        · exact Or.inl hw.symm
    · rw [ih]
      rename_i hne
      constructor
      · rintro (h | ⟨hlt, hw⟩)
        · exact Or.inl h
        · exact Or.inr ⟨Nat.lt_succ_of_lt hlt, hw⟩
      · rintro (h | ⟨hlt, hw⟩)
        · exact Or.inl h
        · have : numWin s - 1 < n := by
            rcases Nat.lt_succ_iff_lt_or_eq.mp hlt with h | h
            · exact h
            · exact absurd h.symm hne
          exact Or.inr ⟨this, hw⟩

theorem addLoop_after (s : Sentence) (b : Brain) (n : Nat) (c : chain)
    (x : Word) :
    x ∈ (addLoop s b n).wordsAfter c ↔
      x ∈ b.wordsAfter c ∨
        ∃ i < n, i ≠ numWin s - 1 ∧ window s i = c ∧
          s.getD (i + chainLen) emptyWord = x := by
  induction n with
  | zero => simp [addLoop]
  | succ n ih =>
    rw [addLoop_succ, addChainStep_after]
    constructor
    · intro h
      split at h
      · rcases Finset.mem_insert.mp h with rfl | h
        · rename_i hcond
          exact Or.inr ⟨n, Nat.lt_succ_self n, hcond.1, hcond.2.symm, rfl⟩
        · rcases ih.mp h with h | ⟨i, hi, hne, hw, hx⟩
          · exact Or.inl h
          · exact Or.inr ⟨i, Nat.lt_succ_of_lt hi, hne, hw, hx⟩
      · rcases ih.mp h with h | ⟨i, hi, hne, hw, hx⟩
        · exact Or.inl h
        · exact Or.inr ⟨i, Nat.lt_succ_of_lt hi, hne, hw, hx⟩
    · intro h
      have base : x ∈ (addLoop s b n).wordsAfter c ∨
          (n ≠ numWin s - 1 ∧ c = window s n ∧ s.getD (n + chainLen) emptyWord = x) := by
        rcases h with h | ⟨i, hi, hne, hw, hx⟩
        · exact Or.inl (ih.mpr (Or.inl h))
        · rcases Nat.lt_succ_iff_lt_or_eq.mp hi with hi | rfl
          · exact Or.inl (ih.mpr (Or.inr ⟨i, hi, hne, hw, hx⟩))
          · exact Or.inr ⟨hne, hw.symm, hx⟩
      rcases base with h | ⟨hne, hw, hx⟩
      · split
        · exact Finset.mem_insert_of_mem h
        · exact h
      · rw [if_pos ⟨hne, hw⟩, ← hx]
        exact Finset.mem_insert_self _ _

theorem AddSentence_short (b : Brain) (s : Sentence) (h : s.length < chainLen) :
    AddSentence b s = b := by
  rw [AddSentence, if_pos h]

theorem AddSentence_eq_addLoop (b : Brain) (s : Sentence)
    (h : chainLen ≤ s.length) :
    AddSentence b s = addLoop s b (numWin s) := by
  rw [AddSentence, if_neg (by omega)]
  rfl

theorem foldl_preserves {β γ : Type _} (P : β → Prop) (f : β → γ → β)
    (hf : ∀ b x, P b → P (f b x)) :
    ∀ (l : List γ) (b : β), P b → P (l.foldl f b) := by
  intro l
  induction l with
  | nil => intro b hb; exact hb
  | cons x xs ih => intro b hb; exact ih (f b x) (hf b x hb)

theorem foldl_fixed {β γ : Type _} (f : β → γ → β) :
    ∀ (l : List γ) (b : β), (∀ x ∈ l, f b x = b) → l.foldl f b = b := by
  intro l
  induction l with
  | nil => intro b _; rfl
  | cons x xs ih =>
    intro b hb
    have hx : f b x = b := hb x (List.mem_cons_self x xs)
    rw [List.foldl_cons, hx]
    exact ih b (fun y hy => hb y (List.mem_cons_of_mem x hy))

theorem addChainStep_inv (s : Sentence) (b : Brain) (i : Nat)
    (hb : BrainInv b) : BrainInv (addChainStep s b i) := by
  obtain ⟨h1, h2, h3, h4, h5, h6⟩ := hb
  refine ⟨?_, ?_, ?_, ?_, ?_, ?_⟩
  · intro c hne
    rw [addChainStep_chains, Finset.mem_insert]
    rw [addChainStep_before] at hne
    split at hne
    · next hcond => exact Or.inl hcond.2
    · exact Or.inr (h1 c hne)
  · intro c hne
    rw [addChainStep_chains, Finset.mem_insert]
    rw [addChainStep_after] at hne
    split at hne
    · next hcond => exact Or.inl hcond.2
    · exact Or.inr (h2 c hne)
  · intro c hc
    rw [addChainStep_chains, Finset.mem_insert]
    rw [addChainStep_start] at hc
    split at hc
    · rcases Finset.mem_insert.mp hc with rfl | hc
      · exact Or.inl rfl
      · exact Or.inr (h3 hc)
    · exact Or.inr (h3 hc)
  · intro c hc
    rw [addChainStep_chains, Finset.mem_insert]
    rw [addChainStep_end] at hc
    split at hc
    · rcases Finset.mem_insert.mp hc with rfl | hc
      · exact Or.inl rfl
      · exact Or.inr (h4 hc)
    · exact Or.inr (h4 hc)
  · intro c hc hns
    rw [addChainStep_chains, Finset.mem_insert] at hc
    rw [addChainStep_before]
    by_cases hceq : c = window s i
    · by_cases hi0 : i = 0
      · exfalso
        apply hns
        rw [addChainStep_start, if_pos hi0, hceq]
        exact Finset.mem_insert_self _ _
      · rw [if_pos ⟨hi0, hceq⟩]
        exact Finset.insert_nonempty _ _
    · have hc2 : c ∈ b.chains := by
        rcases hc with rfl | hc
        · exact absurd rfl hceq
        · exact hc
      have hns2 : c ∉ b.startChains := by
        intro hmem
        apply hns
        rw [addChainStep_start]
        split
        · exact Finset.mem_insert_of_mem hmem
        · exact hmem
      have := h5 c hc2 hns2
      split
      · next hcond => exact absurd hcond.2 hceq
      · exact this
  · intro c hc hne
    rw [addChainStep_chains, Finset.mem_insert] at hc
    rw [addChainStep_after]
    by_cases hceq : c = window s i
    · by_cases hilast : i = numWin s - 1
      · exfalso
        apply hne
        rw [addChainStep_end, if_pos hilast, hceq]
        exact Finset.mem_insert_self _ _
      · rw [if_pos ⟨hilast, hceq⟩]
        exact Finset.insert_nonempty _ _
    · have hc2 : c ∈ b.chains := by
        rcases hc with rfl | hc
        · exact absurd rfl hceq
        · exact hc
      have hne2 : c ∉ b.endChains := by
        intro hmem
        apply hne
        rw [addChainStep_end]
        split
        · exact Finset.mem_insert_of_mem hmem
        · exact hmem
      have := h6 c hc2 hne2
      split
      · next hcond => exact absurd hcond.2 hceq
      · exact this

/-- Claim C3: AddSentence on a sentence of length below chainLen leaves the
Brain unchanged; otherwise the resulting Brain is characterized exactly:
`chains` gains precisely the `numWin s` windows, `wordChains w` gains each
window containing `w`, the window at position 0 joins `startChains` while
every other window records its immediately preceding word in `wordsBefore`,
and the last window joins `endChains` while every other window records its
immediately following word in `wordsAfter`. -/
theorem claim_C3_addSentence_characterization (b : Brain) (s : Sentence) :
    (s.length < chainLen → AddSentence b s = b) ∧
    (chainLen ≤ s.length →
      (∀ c, c ∈ (AddSentence b s).chains ↔
        c ∈ b.chains ∨ ∃ i < numWin s, window s i = c) ∧
      (∀ w c, c ∈ (AddSentence b s).wordChains w ↔
        c ∈ b.wordChains w ∨ ∃ i < numWin s, window s i = c ∧ w ∈ c.toList) ∧
      (∀ c, c ∈ (AddSentence b s).startChains ↔
        c ∈ b.startChains ∨ window s 0 = c) ∧
      (∀ c x, x ∈ (AddSentence b s).wordsBefore c ↔
        x ∈ b.wordsBefore c ∨
          ∃ i, 0 < i ∧ i < numWin s ∧ window s i = c ∧
            s.getD (i - 1) emptyWord = x) ∧
      (∀ c, c ∈ (AddSentence b s).endChains ↔
        c ∈ b.endChains ∨ window s (numWin s - 1) = c) ∧
      (∀ c x, x ∈ (AddSentence b s).wordsAfter c ↔
        x ∈ b.wordsAfter c ∨
          ∃ i < numWin s, i ≠ numWin s - 1 ∧ window s i = c ∧
            s.getD (i + chainLen) emptyWord = x)) := by
  constructor
  · exact AddSentence_short b s
  · intro hlen
    have hwin : 0 < numWin s := by
      unfold numWin chainLen at *
      omega
    rw [AddSentence_eq_addLoop b s hlen]
    refine ⟨fun c => addLoop_chains s b _ c,
      fun w c => addLoop_wordChains s b _ w c,
      fun c => ?_, fun c x => addLoop_before s b _ c x,
      fun c => ?_, fun c x => addLoop_after s b _ c x⟩
    · rw [addLoop_start]
      constructor
      · rintro (h | ⟨_, hw⟩)
        · exact Or.inl h
        · exact Or.inr hw
      · rintro (h | hw)
        · exact Or.inl h
        · exact Or.inr ⟨hwin, hw⟩
    · rw [addLoop_end]
      constructor
      · rintro (h | ⟨_, hw⟩)
        · exact Or.inl h
        · exact Or.inr hw
      · rintro (h | hw)
        · exact Or.inl h
        · exact Or.inr ⟨by omega, hw⟩

/-- Witness for C3 at a concrete input: the 5-word sentence `a b c d e`
learned into the empty brain records its first window. -/
theorem claim_C3_witness :
    chainLen ≤ ([wA, wB, wC, wD, wE] : Sentence).length ∧
      window [wA, wB, wC, wD, wE] 0 ∈
        (AddSentence NewBrain [wA, wB, wC, wD, wE]).chains := by
  refine ⟨by decide, ?_⟩
  exact (((claim_C3_addSentence_characterization NewBrain
      [wA, wB, wC, wD, wE]).2 (by decide)).1 _).mpr
    (Or.inr ⟨0, by decide, rfl⟩)

/-- Claim C4: the §3 consistency invariant holds for the empty Brain and is
preserved by every AddSentence, hence holds for every Brain built by
learning from the empty Brain. -/
theorem claim_C4_invariant_preserved :
    BrainInv NewBrain ∧
      ∀ (b : Brain) (s : Sentence), BrainInv b → BrainInv (AddSentence b s) := by
  constructor
  · refine ⟨?_, ?_, ?_, ?_, ?_, ?_⟩ <;> simp [NewBrain]
  · intro b s hb
    rw [AddSentence]
    split
    · exact hb
    · exact foldl_preserves BrainInv (addChainStep s)
        (fun b2 i h => addChainStep_inv s b2 i h) _ b hb

/-- Witness for C4: the invariant transfers to a concretely learned brain. -/
theorem claim_C4_witness :
    BrainInv (AddSentence NewBrain [wA, wB, wC, wD, wE]) :=
  claim_C4_invariant_preserved.2 NewBrain [wA, wB, wC, wD, wE]
    claim_C4_invariant_preserved.1

theorem addChainStep_eq_self (s : Sentence) (B : Brain) (i : Nat)
    (hch : window s i ∈ B.chains)
    (hwc : ∀ w ∈ (window s i).toList, window s i ∈ B.wordChains w)
    (hst : i = 0 → window s i ∈ B.startChains)
    (hbe : i ≠ 0 → s.getD (i - 1) emptyWord ∈ B.wordsBefore (window s i))
    (hen : i = numWin s - 1 → window s i ∈ B.endChains)
    (haf : i ≠ numWin s - 1 →
      s.getD (i + chainLen) emptyWord ∈ B.wordsAfter (window s i)) :
    addChainStep s B i = B := by
  apply Brain.ext
  · funext w
    rw [addChainStep_wordChains]
    split
    · next hw => exact Finset.insert_eq_self.mpr (hwc w hw)
    · rfl
  · rw [addChainStep_chains]
    exact Finset.insert_eq_self.mpr hch
  · funext c
    rw [addChainStep_after]
    split
    · next hcond =>
      rw [hcond.2]
      exact Finset.insert_eq_self.mpr (haf hcond.1)
    · rfl
  · funext c
    rw [addChainStep_before]
    split
    · next hcond =>
      rw [hcond.2]
      exact Finset.insert_eq_self.mpr (hbe hcond.1)
    · rfl
  · rw [addChainStep_start]
    split
    · next hi => exact Finset.insert_eq_self.mpr (hst hi)
    · rfl
  · rw [addChainStep_end]
    split
    · next hi => exact Finset.insert_eq_self.mpr (hen hi)
    · rfl

/-- Claim C10: AddSentence is idempotent — repeating the same sentence
immediately leaves every Brain structure exactly as after the first call,
since all structures are set-valued and the operation only inserts. -/
theorem claim_C10_addSentence_idempotent (b : Brain) (s : Sentence) :
    AddSentence (AddSentence b s) s = AddSentence b s := by
  by_cases hlen : s.length < chainLen
  · exact AddSentence_short _ s hlen
  · have hlen2 : chainLen ≤ s.length := by omega
    rw [AddSentence_eq_addLoop _ s hlen2]
    apply foldl_fixed
    intro i hi
    rw [List.mem_range] at hi
    have hBdef : AddSentence b s = addLoop s b (numWin s) :=
      AddSentence_eq_addLoop b s hlen2
    exact addChainStep_eq_self s (AddSentence b s) i
      (by rw [hBdef]
          exact (addLoop_chains s b _ _).mpr (Or.inr ⟨i, hi, rfl⟩))
      (fun w hw => by
        rw [hBdef]
        exact (addLoop_wordChains s b _ w _).mpr (Or.inr ⟨i, hi, rfl, hw⟩))
      (fun hi0 => by
        rw [hBdef]
        exact (addLoop_start s b _ _).mpr (Or.inr ⟨by omega, by rw [hi0]⟩))
      (fun hi0 => by
        rw [hBdef]
        exact (addLoop_before s b _ _ _).mpr
          (Or.inr ⟨i, Nat.pos_of_ne_zero hi0, hi, rfl, rfl⟩))
      (fun hil => by
        rw [hBdef]
        exact (addLoop_end s b _ _).mpr (Or.inr ⟨by omega, by rw [hil]⟩))
      (fun hil => by
        rw [hBdef]
        exact (addLoop_after s b _ _ _).mpr (Or.inr ⟨i, hi, hil, rfl, rfl⟩))

/-! ## Lemmas: the generation walk (makeSentence) -/

theorem makeSentence_made_shape (b : Brain) (w : Word)
    (mbs mbe : Bool) (enum : List chain) (pickMid : Finset chain → chain)
    (drawB : Nat → Nat) (pickB : Nat → Finset Word → Word)
    (drawA : Nat → Nat) (pickA : Nat → Finset Word → Word)
    (fuel : Nat) (l : List Word)
    (h : makeSentence b w mbs mbe enum pickMid drawB pickB drawA pickA fuel =
      .made l) :
    ∃ (mid : chain) (before after : List Word),
      chooseMiddle b w mbs mbe enum pickMid = some mid ∧
      l = before.reverse ++ mid.toList ++ after := by
  rw [makeSentence] at h
  split at h
  · exact absurd h (by simp)
  · split at h
    · exact absurd h (by simp)
    · rename_i mid hmid
      split at h
      · exact absurd h (by simp)
      · exact absurd h (by simp)
      · rename_i before hback
        split at h
        · exact absurd h (by simp)
        · exact absurd h (by simp)
        · rename_i after hfwd
          refine ⟨mid, before, after, hmid, ?_⟩
          cases h
          rfl

theorem chain_toList_length (c : chain) : c.toList.length = chainLen := rfl

theorem mem_toList_of_w0 (c : chain) (w : Word) (h : c.w0 = w) : w ∈ c.toList := by
  rw [chain.toList, ← h]
  exact List.mem_cons_self _ _

theorem mem_toList_of_w3 (c : chain) (w : Word) (h : c.w3 = w) : w ∈ c.toList := by
  rw [chain.toList, ← h]
  simp

/-- Claim C2 evaluation at the failing input: for the brain taught the
single sentence `a ? c d e`, the keyword `?` is known but no end chain has
it in last position, and makeSentence with mustBeEnd falls through with the
zero-value chain and panics (ChooseOneRandom on the empty wordsBefore set)
instead of returning the empty sentence. -/
theorem claim_C2_mustBeEnd_panic_eval :
    makeSentence brainC2 QuestionMark false true enumC2 pickMidZero
      drawLo pickNone drawLo pickNone 5 = .panicked := by decide

/-- Counterexample to claim C5 as stated: with mustBeStart, the backward
walk may continue past the start seed chain, so the keyword need not be the
first word of the returned sentence. -/
theorem claim_C5_counterexample :
    makeSentence brainC5 wA true false enumC5 pickMidC5 drawLo pickX
        drawHi pickNone 10 = .made [wX, wA, wB, wC, wD] ∧
      List.head? [wX, wA, wB, wC, wD] ≠ some wA := by decide

/-- Claim C5 (amended): a non-empty generation result always has length at
least chainLen and contains the keyword — in the seed chain, at the
position constrained by the flags (for mustBeEnd provided a matching end
chain exists, cf. C2) — but the keyword need not sit at the first/last
position of the final sentence, since the boundary walks may extend past
the seed chain. -/
theorem claim_C5_amended (b : Brain) (w : Word) (enum : List chain)
    (pickMid : Finset chain → chain)
    (drawB : Nat → Nat) (pickB : Nat → Finset Word → Word)
    (drawA : Nat → Nat) (pickA : Nat → Finset Word → Word)
    (fuel : Nat) (l : List Word) :
    (∀ mbs mbe : Bool,
      makeSentence b w mbs mbe enum pickMid drawB pickB drawA pickA fuel =
          .made l →
        chainLen ≤ l.length) ∧
    (pickMid (b.wordChains w) ∈ b.wordChains w →
      (∀ c ∈ b.wordChains w, w ∈ c.toList) →
      makeSentence b w false false enum pickMid drawB pickB drawA pickA fuel =
          .made l →
        w ∈ l) ∧
    (makeSentence b w true false enum pickMid drawB pickB drawA pickA fuel =
          .made l →
        w ∈ l) ∧
    ((∃ c ∈ enum, c.w3 = w ∧ c ∈ b.endChains) →
      makeSentence b w false true enum pickMid drawB pickB drawA pickA fuel =
          .made l →
        w ∈ l) := by
  refine ⟨?_, ?_, ?_, ?_⟩
  · intro mbs mbe h
    obtain ⟨mid, before, after, _, rfl⟩ :=
      makeSentence_made_shape b w mbs mbe enum pickMid drawB pickB drawA
        pickA fuel l h
    simp [chain.toList, chainLen]
    omega
  · intro hpm hwc h
    obtain ⟨mid, before, after, hmid, rfl⟩ :=
      makeSentence_made_shape b w false false enum pickMid drawB pickB drawA
        pickA fuel l h
    rw [chooseMiddle] at hmid
    simp only [Bool.false_eq_true, if_false, Option.some.injEq] at hmid
    have : w ∈ mid.toList := by
      rw [← hmid]
      exact hwc _ hpm
    simp only [List.mem_append]
    exact Or.inl (Or.inr this)
  · intro h
    obtain ⟨mid, before, after, hmid, rfl⟩ :=
      makeSentence_made_shape b w true false enum pickMid drawB pickB drawA
        pickA fuel l h
    rw [chooseMiddle] at hmid
    simp only [Bool.false_eq_true, if_false, if_true] at hmid
    have hp := List.find?_some hmid
    have hp2 := of_decide_eq_true hp
    have : w ∈ mid.toList := mem_toList_of_w0 mid w hp2.1
    simp only [List.mem_append]
    exact Or.inl (Or.inr this)
  · intro hex h
    obtain ⟨mid, before, after, hmid, rfl⟩ :=
      makeSentence_made_shape b w false true enum pickMid drawB pickB drawA
        pickA fuel l h
    rw [chooseMiddle, if_pos rfl] at hmid
    obtain ⟨c, hc, hcp⟩ := hex
    have hfind : (enum.find? (fun c =>
        decide (c.w3 = w ∧ c ∈ b.endChains))).isSome := by
      rw [List.find?_isSome]
      exact ⟨c, hc, decide_eq_true hcp⟩
    obtain ⟨c2, hc2⟩ := Option.isSome_iff_exists.mp hfind
    rw [hc2] at hmid
    simp only [Option.getD_some, Option.some.injEq] at hmid
    have hp := List.find?_some hc2
    have hp2 := of_decide_eq_true hp
    have : w ∈ mid.toList := by
      rw [← hmid]
      exact mem_toList_of_w3 c2 w hp2.1
    simp only [List.mem_append]
    exact Or.inl (Or.inr this)

/-- Witness for the amended C5 at a concrete input: the flags-free
generation on the two-sentence brain produces a sentence of length at least
chainLen containing the keyword. -/
theorem claim_C5_witness :
    chainLen ≤ [wX, wA, wB, wC, wD].length ∧ wA ∈ [wX, wA, wB, wC, wD] := by
  have hrun : makeSentence brainC5 wA false false enumC5 pickMidC5 drawLo
      pickX drawHi pickNone 10 = .made [wX, wA, wB, wC, wD] := by decide
  exact ⟨(claim_C5_amended brainC5 wA enumC5 pickMidC5 drawLo pickX drawHi
      pickNone 10 [wX, wA, wB, wC, wD]).1 false false hrun,
    (claim_C5_amended brainC5 wA enumC5 pickMidC5 drawLo pickX drawHi
      pickNone 10 [wX, wA, wB, wC, wD]).2.1 (by decide) (by decide) hrun⟩

theorem backWalk_zero (b : Brain) (draw : Nat → Nat)
    (pick : Nat → Finset Word → Word) (step : Nat) (c : chain)
    (acc : List Word) : backWalk b draw pick 0 step c acc = .fuelOut := rfl

theorem backWalk_succ (b : Brain) (draw : Nat → Nat)
    (pick : Nat → Finset Word → Word) (fuel step : Nat) (c : chain)
    (acc : List Word) :
    backWalk b draw pick (fuel + 1) step c acc =
      if c ∈ b.startChains ∧
          (b.wordsBefore c = ∅ ∨ continueChance ≤ draw step) then
        .finished acc
      else if b.wordsBefore c = ∅ then
        .panicked
      else
        backWalk b draw pick fuel (step + 1)
          (c.PushBefore (pick step (b.wordsBefore c)))
          (acc ++ [pick step (b.wordsBefore c)]) := rfl

theorem backWalk_C6_fuelOut :
    ∀ (n step : Nat) (acc : List Word),
      backWalk brainC6 drawLo pickA0 n step (window sC6 0) acc = .fuelOut := by
  intro n
  induction n with
  | zero => intro step acc; rfl
  | succ n ih =>
    intro step acc
    rw [backWalk_succ]
    have hne : brainC6.wordsBefore (window sC6 0) = {wA} := by decide
    have hcond : ¬(window sC6 0 ∈ brainC6.startChains ∧
        (brainC6.wordsBefore (window sC6 0) = ∅ ∨
          continueChance ≤ drawLo step)) := by
      rintro ⟨-, h | h⟩
      · rw [hne] at h
        exact absurd h (by decide)
      · simp only [drawLo, continueChance] at h
        omega
    rw [if_neg hcond, if_neg (by rw [hne]; decide)]
    have hpick : pickA0 step (brainC6.wordsBefore (window sC6 0)) = wA := by
      rw [hne]
      simp [pickA0]
    rw [hpick]
    have hpb : (window sC6 0).PushBefore wA = window sC6 0 := by decide
    rw [hpb]
    exact ih (step + 1) (acc ++ [wA])

/-- Counterexample to claim C6 as stated: for the brain taught `a a a a a`
(which satisfies the §3 invariants, being built by AddSentence) there is a
sequence of random draws — always continue, always pick `a` — under which
the backward walk never stops. -/
theorem claim_C6_counterexample :
    ¬ BackTerminates brainC6 drawLo pickA0 (window sC6 0) := by
  rintro ⟨n, ws, h⟩
  rw [backWalk_C6_fuelOut n 0 []] at h
  exact absurd h (by simp)

/-- Claim C6 (amended): for brains built by AddSentence from the empty
brain, each iteration of the backward walk can always pick a preceding word
— the walk never panics from a chain that may start a sentence or has a
recorded predecessor — but the walk need not terminate for every sequence
of random draws. -/
theorem claim_C6_amended :
    BackClosed NewBrain ∧
    (∀ (b : Brain) (s : Sentence), BackClosed b → BackClosed (AddSentence b s)) ∧
    (∀ (b : Brain) (draw : Nat → Nat) (pick : Nat → Finset Word → Word),
      (∀ (k : Nat) (t : Finset Word), t.Nonempty → pick k t ∈ t) →
      BackClosed b →
      ∀ c : chain, (c ∈ b.startChains ∨ (b.wordsBefore c).Nonempty) →
      ∀ (n step : Nat) (acc : List Word),
        backWalk b draw pick n step c acc ≠ .panicked) := by
  refine ⟨?_, ?_, ?_⟩
  · intro c x h
    simp [NewBrain] at h
  · intro b s hb
    by_cases hlen : s.length < chainLen
    · rw [AddSentence_short _ _ hlen]
      exact hb
    · have hlen2 : chainLen ≤ s.length := by omega
      intro c x hmem
      rw [AddSentence_eq_addLoop _ _ hlen2] at hmem ⊢
      rcases (addLoop_before s b _ c x).mp hmem with hold | ⟨i, hi0, hi, hw, hx⟩
      · rcases hb c x hold with hst | hne
        · exact Or.inl ((addLoop_start s b _ _).mpr (Or.inl hst))
        · obtain ⟨y, hy⟩ := hne
          exact Or.inr ⟨y, (addLoop_before s b _ _ _).mpr (Or.inl hy)⟩
      · have hpb : c.PushBefore x = window s (i - 1) := by
          rw [← hw, ← hx]
          have e1 : i - 1 + 1 = i := by omega
          have e2 : i - 1 + 2 = i + 1 := by omega
          have e3 : i - 1 + 3 = i + 2 := by omega
          rw [chain.PushBefore, window, window, e1, e2, e3]
        rw [hpb]
        by_cases hi1 : i = 1
        · subst hi1
          exact Or.inl ((addLoop_start s b _ _).mpr (Or.inr ⟨by omega, rfl⟩))
        · exact Or.inr ⟨s.getD (i - 1 - 1) emptyWord,
            (addLoop_before s b _ _ _).mpr
              (Or.inr ⟨i - 1, by omega, by omega, rfl, rfl⟩)⟩
  · intro b draw pick hpick hcl c hc n
    induction n generalizing c with
    | zero =>
      intro step acc
      rw [backWalk_zero]
      simp
    | succ n ih =>
      intro step acc
      rw [backWalk_succ]
      split
      · simp
      · next hstop =>
        split
        · next hemp =>
          exfalso
          rcases hc with hst | hne
          · exact hstop ⟨hst, Or.inl hemp⟩
          · rw [hemp] at hne
            exact Finset.not_nonempty_empty hne
        · next hemp =>
          have hne : (b.wordsBefore c).Nonempty :=
            Finset.nonempty_iff_ne_empty.mpr hemp
          exact ih _ (hcl c _ (hpick _ _ hne)) (step + 1) (acc ++ [_])

/-- Witness for the amended C6: the walk on the concretely learned brain
never panics. -/
theorem claim_C6_witness :
    backWalk brainC6 drawLo (fun _ t => chooseWord t) 3 0 (window sC6 0) [] ≠
      .panicked :=
  claim_C6_amended.2.2 brainC6 drawLo (fun _ t => chooseWord t)
    (fun _ t ht => chooseWord_mem ht)
    (claim_C6_amended.2.1 NewBrain sC6 claim_C6_amended.1)
    (window sC6 0) (Or.inl (by decide)) 3 0 []

/-! ## Lemmas: MakeReply scoring -/

theorem pts_nonneg (n p a : Finset Word) (w : Word) : 0 ≤ pts n p a w := by
  unfold pts
  split_ifs <;> norm_num

theorem score_shift (n p a : Finset Word) :
    ∀ (s : List Word) (acc : Int),
      s.foldl (fun ac w => ac + pts n p a w) acc = acc + score n p a s := by
  intro s
  induction s with
  | nil => intro acc; simp [score]
  | cons w t ih =>
    intro acc
    have hs : score n p a (w :: t) = pts n p a w + score n p a t := by
      rw [score, List.foldl_cons, ih, score]
      omega
    rw [List.foldl_cons, ih, hs]
    omega

theorem score_cons (n p a : Finset Word) (w : Word) (t : List Word) :
    score n p a (w :: t) = pts n p a w + score n p a t := by
  rw [score, List.foldl_cons, score_shift, score]
  omega

theorem score_nonneg (n p a : Finset Word) (s : List Word) :
    0 ≤ score n p a s := by
  induction s with
  | nil => rw [score]; simp
  | cons w t ih =>
    rw [score_cons]
    have := pts_nonneg n p a w
    omega

theorem score_eq_sum (n p a : Finset Word) (s : List Word) :
    score n p a s = (s.map (pts n p a)).sum := by
  induction s with
  | nil => rw [score]; simp
  | cons w t ih => rw [score_cons, List.map_cons, List.sum_cons, ih]

theorem selectBest_go (n p a : Finset Word) :
    ∀ (l : List Sentence) (s : Sentence),
      (l.foldl
          (fun best t =>
            if best.2 < score n p a t then ((some t : Option Sentence), score n p a t)
            else best)
          ((some s : Option Sentence), score n p a s) =
            ((some s : Option Sentence), score n p a s) ∧
        ∀ t ∈ l, score n p a t ≤ score n p a s) ∨
      (∃ (l1 : List Sentence) (r : Sentence) (l2 : List Sentence),
        l = l1 ++ r :: l2 ∧
        l.foldl
          (fun best t =>
            if best.2 < score n p a t then ((some t : Option Sentence), score n p a t)
            else best)
          ((some s : Option Sentence), score n p a s) =
            ((some r : Option Sentence), score n p a r) ∧
        score n p a s < score n p a r ∧
        (∀ t ∈ l1, score n p a t < score n p a r) ∧
        (∀ t ∈ l2, score n p a t ≤ score n p a r)) := by
  intro l
  induction l with
  | nil => intro s; exact Or.inl ⟨rfl, by simp⟩
  | cons t rest ih =>
    intro s
    rw [List.foldl_cons]
    by_cases hts : score n p a s < score n p a t
    · rw [if_pos hts]
      rcases ih t with ⟨heq, hall⟩ | ⟨r1, r, r2, hsplit, heq, hlt, h1, h2⟩
      · exact Or.inr ⟨[], t, rest, rfl, heq, hts, by simp, hall⟩
      · refine Or.inr ⟨t :: r1, r, r2, by rw [hsplit, List.cons_append], heq,
          lt_trans hts hlt, ?_, h2⟩
        intro u hu
        rcases List.mem_cons.mp hu with rfl | hu
        · exact hlt
        · exact h1 u hu
    · rw [if_neg hts]
      have hts2 : score n p a t ≤ score n p a s := not_lt.mp hts
      rcases ih s with ⟨heq, hall⟩ | ⟨r1, r, r2, hsplit, heq, hlt, h1, h2⟩
      · refine Or.inl ⟨heq, ?_⟩
        intro u hu
        rcases List.mem_cons.mp hu with rfl | hu
        · exact hts2
        · exact hall u hu
      · refine Or.inr ⟨t :: r1, r, r2, by rw [hsplit, List.cons_append], heq, hlt, ?_, h2⟩
        intro u hu
        rcases List.mem_cons.mp hu with rfl | hu
        · exact lt_of_le_of_lt hts2 hlt
        · exact h1 u hu

theorem selectBest_spec (n p a : Finset Word) (l : List Sentence)
    (hl : l ≠ []) :
    ∃ (l1 : List Sentence) (r : Sentence) (l2 : List Sentence),
      l = l1 ++ r :: l2 ∧ selectBest n p a l = some r ∧
      (∀ t ∈ l, score n p a t ≤ score n p a r) ∧
      (∀ t ∈ l1, score n p a t < score n p a r) := by
  rcases l with _ | ⟨t, rest⟩
  · exact absurd rfl hl
  · rw [selectBest, List.foldl_cons,
      if_pos (by have := score_nonneg n p a t; omega : (-1 : Int) < score n p a t)]
    rcases selectBest_go n p a rest t with ⟨heq, hall⟩ |
        ⟨r1, r, r2, hsplit, heq, hlt, h1, h2⟩
    · refine ⟨[], t, rest, rfl, by rw [heq], ?_, by simp⟩
      intro u hu
      rcases List.mem_cons.mp hu with rfl | hu
      · exact le_refl _
      · exact hall u hu
    · refine ⟨t :: r1, r, r2, by rw [hsplit, List.cons_append], by rw [heq], ?_, ?_⟩
      · intro u hu
        rcases List.mem_cons.mp hu with rfl | hu
        · exact le_of_lt hlt
        · rw [hsplit] at hu
          rcases List.mem_append.mp hu with hu | hu
          · exact le_of_lt (h1 u hu)
          · rcases List.mem_cons.mp hu with rfl | hu
            · exact le_refl _
            · exact h2 u hu
      · intro u hu
        rcases List.mem_cons.mp hu with rfl | hu
        · exact hlt
        · exact h1 u hu

/-- Claim C7: with two or more candidates, each candidate's score is the
additive rubric summed over its words (with multiplicity): +2 for a proper
noun, +3 for membership in the input noun set, +4 for membership in the
input proper-noun set (cumulative), +1 for membership in the full input
word set; the candidate with the strictly highest total is returned, ties
going to the first candidate in enumeration order. -/
theorem claim_C7_reply_scoring (gen : Word → Sentence)
    (kwEnum : Finset Word → List Word) (ss : List Sentence)
    (hk : replyKeywords ss ≠ ∅)
    (h2 : 2 ≤ (replyCands gen kwEnum ss).length) :
    (∀ s, score (replyNouns ss) (replyProperNouns ss) (replyAllWords ss) s =
      (s.map (pts (replyNouns ss) (replyProperNouns ss) (replyAllWords ss))).sum) ∧
    ∃ (l1 : List Sentence) (r : Sentence) (l2 : List Sentence),
      replyCands gen kwEnum ss = l1 ++ r :: l2 ∧
      MakeReply gen kwEnum ss = some r ∧
      (∀ t ∈ replyCands gen kwEnum ss,
        score (replyNouns ss) (replyProperNouns ss) (replyAllWords ss) t ≤
          score (replyNouns ss) (replyProperNouns ss) (replyAllWords ss) r) ∧
      (∀ t ∈ l1,
        score (replyNouns ss) (replyProperNouns ss) (replyAllWords ss) t <
          score (replyNouns ss) (replyProperNouns ss) (replyAllWords ss) r) := by
  refine ⟨fun s => score_eq_sum _ _ _ s, ?_⟩
  rcases hc : replyCands gen kwEnum ss with _ | ⟨c1, _ | ⟨c2, cr⟩⟩
  · rw [hc] at h2
    simp at h2
  · rw [hc] at h2
    simp at h2
  · obtain ⟨l1, r, l2, hsplit, hsel, hle, hlt⟩ :=
      selectBest_spec (replyNouns ss) (replyProperNouns ss) (replyAllWords ss)
        (c1 :: c2 :: cr) (by simp)
    refine ⟨l1, r, l2, hsplit, ?_, hle, hlt⟩
    rw [MakeReply, if_neg hk, hc]
    exact hsel

/-- Witness for C7: two noun keywords, each generating a distinct
four-word candidate. -/
theorem claim_C7_witness :
    ∃ (l1 : List Sentence) (r : Sentence) (l2 : List Sentence),
      replyCands (fun w => [w, w, w, w]) (fun _ => [nounN1, nounN2])
          [[nounN1, nounN2]] = l1 ++ r :: l2 ∧
      MakeReply (fun w => [w, w, w, w]) (fun _ => [nounN1, nounN2])
          [[nounN1, nounN2]] = some r ∧
      (∀ t ∈ replyCands (fun w => [w, w, w, w]) (fun _ => [nounN1, nounN2])
          [[nounN1, nounN2]],
        score (replyNouns [[nounN1, nounN2]])
            (replyProperNouns [[nounN1, nounN2]])
            (replyAllWords [[nounN1, nounN2]]) t ≤
          score (replyNouns [[nounN1, nounN2]])
            (replyProperNouns [[nounN1, nounN2]])
            (replyAllWords [[nounN1, nounN2]]) r) ∧
      (∀ t ∈ l1,
        score (replyNouns [[nounN1, nounN2]])
            (replyProperNouns [[nounN1, nounN2]])
            (replyAllWords [[nounN1, nounN2]]) t <
          score (replyNouns [[nounN1, nounN2]])
            (replyProperNouns [[nounN1, nounN2]])
            (replyAllWords [[nounN1, nounN2]]) r) :=
  (claim_C7_reply_scoring (fun w => [w, w, w, w]) (fun _ => [nounN1, nounN2])
    [[nounN1, nounN2]] (by decide) (by decide)).2

/-- Claim C8: MakeReply's keyword set is the input's proper nouns when at
least 2 are distinct, otherwise the input's noun set; an empty keyword set
yields the empty reply for every generation oracle. -/
theorem claim_C8_keyword_selection (ss : List Sentence) :
    (replyKeywords ss =
      if 2 ≤ (replyProperNouns ss).card then replyProperNouns ss
      else replyNouns ss) ∧
    (replyKeywords ss = ∅ →
      ∀ (gen : Word → Sentence) (kwEnum : Finset Word → List Word),
        MakeReply gen kwEnum ss = none) := by
  constructor
  · rw [replyKeywords]
    by_cases h : (replyProperNouns ss).card < 2
    · rw [if_pos h, if_neg (by omega)]
    · rw [if_neg h, if_pos (by omega)]
  · intro h gen kwEnum
    rw [MakeReply, if_pos h]

/-- Witness for C8: the empty input gives an empty keyword set and an empty
reply. -/
theorem claim_C8_witness :
    MakeReply (fun w => [w, w, w, w]) (fun _ => []) [] = none :=
  (claim_C8_keyword_selection []).2 (by decide) (fun w => [w, w, w, w])
    (fun _ => [])

/-! ## Lemmas: snapshot codec -/

theorem loadChain_err (tbl : List fWord) (b : Brain) (fc : fChain)
    (h : fc.words.length ≠ chainLen) :
    loadChain tbl b fc = .error "chain has wrong length" := by
  rw [loadChain, if_pos h]

theorem loadChain_isOk (tbl : List fWord) (b : Brain) (fc : fChain)
    (h : fc.words.length = chainLen) :
    ∃ b2, loadChain tbl b fc = .ok b2 := by
  rw [loadChain, if_neg (by omega)]
  exact ⟨_, rfl⟩

theorem loadChains_err_iff (tbl : List fWord) :
    ∀ (fcs : List fChain) (b : Brain),
      (∃ e, loadChains tbl b fcs = .error e) ↔
        ∃ fc ∈ fcs, fc.words.length ≠ chainLen := by
  intro fcs
  induction fcs with
  | nil =>
    intro b
    constructor
    · rintro ⟨e, he⟩
      exact absurd he (by rw [loadChains]; simp)
    · rintro ⟨fc, hfc, -⟩
      exact absurd hfc (by simp)
  | cons fc rest ih =>
    intro b
    by_cases h : fc.words.length = chainLen
    · obtain ⟨b2, hb2⟩ := loadChain_isOk tbl b fc h
      rw [loadChains, hb2]
      rw [ih b2]
      constructor
      · rintro ⟨fc2, hfc2, hlen⟩
        exact ⟨fc2, List.mem_cons_of_mem fc hfc2, hlen⟩
      · rintro ⟨fc2, hfc2, hlen⟩
        rcases List.mem_cons.mp hfc2 with rfl | hfc2
        · exact absurd h hlen
        · exact ⟨fc2, hfc2, hlen⟩
    · rw [loadChains, loadChain_err tbl b fc h]
      constructor
      · intro _
        exact ⟨fc, List.mem_cons_self fc rest, h⟩
      · intro _
        exact ⟨_, rfl⟩

theorem LoadBrainData_err_iff (fb : fBrain) :
    (∃ e, LoadBrainData fb = .error e) ↔
      fb.chainLen ≠ (chainLen : Int) ∨
        ∃ fc ∈ fb.chains, fc.words.length ≠ chainLen := by
  rw [LoadBrainData]
  by_cases h : fb.chainLen = (chainLen : Int)
  · rw [if_neg (by omega)]
    rw [loadChains_err_iff]
    constructor
    · exact Or.inr
    · rintro (hbad | hbad)
      · exact absurd h hbad
      · exact hbad
  · rw [if_pos h]
    constructor
    · intro _
      exact Or.inl h
    · intro _
      exact ⟨_, rfl⟩

/-- Claim C9: LoadBrain fails exactly when the stream is shorter than 4
bytes or not magic-prefixed ("not a brain file", covering a truncated
2-byte file), the payload is undecodable, the declared chain length is not
4, or some chain record's word-index list has the wrong length; and an
out-of-range word index is not a failure — it decodes to the zero-value
placeholder Word.  A failed load produces no Brain (the error carries
none). -/
theorem claim_C9_load_error_conditions :
    (∀ (unmarshal : List Nat → Option fBrain) (src : List Nat),
      (∃ e, LoadBrain unmarshal src = .error e) ↔
        src.length < 4 ∨ src.take 4 ≠ fMagic ∨ unmarshal (src.drop 4) = none ∨
          ∃ fb, unmarshal (src.drop 4) = some fb ∧
            (fb.chainLen ≠ (chainLen : Int) ∨
              ∃ fc ∈ fb.chains, fc.words.length ≠ chainLen)) ∧
    (∀ (unmarshal : List Nat → Option fBrain) (src : List Nat),
      src.length = 2 → LoadBrain unmarshal src = .error "not a brain file") ∧
    (∀ (tbl : List fWord) (i : Int), (i < 0 ∨ tbl.length ≤ i.toNat) →
      wordByIdx tbl i = emptyWord) := by
  refine ⟨?_, ?_, ?_⟩
  · intro unmarshal src
    by_cases hpre : src.length < 4 ∨ src.take 4 ≠ fMagic
    · rw [LoadBrain, if_pos hpre]
      constructor
      · intro _
        rcases hpre with h | h
        · exact Or.inl h
        · exact Or.inr (Or.inl h)
      · intro _
        exact ⟨_, rfl⟩
    · rw [LoadBrain, if_neg hpre]
      push_neg at hpre
      rcases hu : unmarshal (src.drop 4) with _ | fb
      · constructor
        · intro _
          exact Or.inr (Or.inr (Or.inl rfl))
        · intro _
          exact ⟨_, rfl⟩
      · rw [LoadBrainData_err_iff]
        constructor
        · intro hbad
          exact Or.inr (Or.inr (Or.inr ⟨fb, rfl, hbad⟩))
        · rintro (h | h | h | ⟨fb2, hfb2, hbad⟩)
          · omega
          · exact absurd hpre.2 h
          · exact absurd h (by simp)
          · cases hfb2
            exact hbad
  · intro unmarshal src hlen
    rw [LoadBrain, if_pos (Or.inl (by omega))]
  · intro tbl i hi
    rw [wordByIdx, if_pos (by omega)]

/-- Witness for C9: a truncated 2-byte stream fails with the
"not a brain file" condition. -/
theorem claim_C9_witness :
    LoadBrain (fun _ => none) [81, 87] = .error "not a brain file" :=
  claim_C9_load_error_conditions.2.1 (fun _ => none) [81, 87] (by decide)

theorem wordByIdx_in_range (tbl : List fWord) (i : Int) (h0 : 0 ≤ i)
    (hlt : i.toNat < tbl.length) :
    wordByIdx tbl i = ⟨(tbl.getD i.toNat ⟨"", ""⟩).tag, (tbl.getD i.toNat ⟨"", ""⟩).text⟩ := by
  rw [wordByIdx, if_neg (by omega)]

theorem wordByIdx_append (tbl t : List fWord) (i : Int) (h0 : 0 ≤ i)
    (hlt : i.toNat < tbl.length) :
    wordByIdx (tbl ++ t) i = wordByIdx tbl i := by
  rw [wordByIdx_in_range tbl i h0 hlt,
    wordByIdx_in_range (tbl ++ t) i h0 (by rw [List.length_append]; omega),
    List.getD_append _ _ _ _ hlt]

theorem wordByIdx_of_getD (tbl : List fWord) (i : Int) (w : Word) (h0 : 0 ≤ i)
    (hlt : i.toNat < tbl.length) (hg : tbl.getD i.toNat ⟨"", ""⟩ = toFWord w) :
    wordByIdx tbl i = w := by
  rw [wordByIdx_in_range tbl i h0 hlt, hg]
  rfl

theorem internWord_spec (w : Word) :
    ∀ tbl : List fWord, ∃ t,
      (internWord tbl w).1 = tbl ++ t ∧ 0 ≤ (internWord tbl w).2 ∧
      (internWord tbl w).2.toNat < (internWord tbl w).1.length ∧
      (internWord tbl w).1.getD (internWord tbl w).2.toNat ⟨"", ""⟩ = toFWord w := by
  intro tbl
  induction tbl with
  | nil => exact ⟨[toFWord w], rfl, by simp [internWord], by simp [internWord], rfl⟩
  | cons fw rest ih =>
    by_cases heq : fw = toFWord w
    · refine ⟨[], by simp [internWord, heq], ?_, ?_, ?_⟩ <;>
        simp [internWord, if_pos heq, heq]
    · obtain ⟨t, ht, h0, hlt, hg⟩ := ih
      have hstep : internWord (fw :: rest) w =
          (fw :: (internWord rest w).1, (internWord rest w).2 + 1) := by
        rw [internWord, if_neg heq]
      refine ⟨t, ?_, ?_, ?_, ?_⟩
      · rw [hstep, ht]
        rfl
      · rw [hstep]
        simp only
        omega
      · rw [hstep]
        simp only [List.length_cons]
        omega
      · rw [hstep]
        simp only
        have htn : ((internWord rest w).2 + 1).toNat = (internWord rest w).2.toNat + 1 := by
          omega
        rw [htn, List.getD_cons_succ]
        exact hg

theorem DecOk_append (tbl t : List fWord) (ids : List Int) (ws : List Word)
    (h : DecOk tbl ids ws) : DecOk (tbl ++ t) ids ws := by
  obtain ⟨hmap, hbound⟩ := h
  constructor
  · rw [← hmap]
    apply List.map_congr_left
    intro i hi
    exact wordByIdx_append tbl t i (hbound i hi).1 (hbound i hi).2
  · intro i hi
    refine ⟨(hbound i hi).1, ?_⟩
    rw [List.length_append]
    have := (hbound i hi).2
    omega

theorem internWords_spec (ws : List Word) :
    ∀ tbl : List fWord, ∃ t,
      (internWords tbl ws).1 = tbl ++ t ∧
      DecOk (internWords tbl ws).1 (internWords tbl ws).2 ws := by
  induction ws with
  | nil =>
    intro tbl
    exact ⟨[], by simp [internWords], by simp [internWords, DecOk]⟩
  | cons w ws ih =>
    intro tbl
    obtain ⟨t1, ht1, h0, hlt, hg⟩ := internWord_spec w tbl
    obtain ⟨t2, ht2, hdec⟩ := ih (internWord tbl w).1
    have hstep : internWords tbl (w :: ws) =
        ((internWords (internWord tbl w).1 ws).1,
          (internWord tbl w).2 :: (internWords (internWord tbl w).1 ws).2) := by
      rw [internWords]
    refine ⟨t1 ++ t2, ?_, ?_, ?_⟩
    · rw [hstep]
      simp only
      rw [ht2, ht1, List.append_assoc]
    · rw [hstep]
      simp only [List.map_cons]
      obtain ⟨hmap, hbound⟩ := hdec
      rw [hmap]
      congr 1
      rw [ht2]
      rw [wordByIdx_append _ t2 _ h0 hlt]
      exact wordByIdx_of_getD _ _ w h0 hlt hg
    · rw [hstep]
      simp only [List.mem_cons]
      rintro i (rfl | hi)
      · refine ⟨h0, ?_⟩
        rw [ht2, List.length_append]
        omega
      · exact hdec.2 i hi

theorem RecOk_append (tbl t : List fWord) (b : Brain)
    (ordA ordB : chain → List Word) (c : chain) (fc : fChain)
    (h : RecOk tbl b ordA ordB c fc) : RecOk (tbl ++ t) b ordA ordB c fc :=
  ⟨DecOk_append tbl t _ _ h.1, DecOk_append tbl t _ _ h.2.1,
    DecOk_append tbl t _ _ h.2.2.1, h.2.2.2.1, h.2.2.2.2⟩

theorem saveChain_spec (b : Brain) (ordA ordB : chain → List Word)
    (tbl : List fWord) (c : chain) : ∃ t,
      (saveChain b ordA ordB tbl c).1 = tbl ++ t ∧
      RecOk (saveChain b ordA ordB tbl c).1 b ordA ordB c
        (saveChain b ordA ordB tbl c).2 := by
  obtain ⟨t1, ht1, hd1⟩ := internWords_spec c.toList tbl
  obtain ⟨t2, ht2, hd2⟩ := internWords_spec (ordA c) (internWords tbl c.toList).1
  obtain ⟨t3, ht3, hd3⟩ :=
    internWords_spec (ordB c) (internWords (internWords tbl c.toList).1 (ordA c)).1
  have hstep : saveChain b ordA ordB tbl c =
      ((internWords (internWords (internWords tbl c.toList).1 (ordA c)).1 (ordB c)).1,
        ⟨(internWords tbl c.toList).2,
          (internWords (internWords tbl c.toList).1 (ordA c)).2,
          (internWords (internWords (internWords tbl c.toList).1 (ordA c)).1 (ordB c)).2,
          decide (c ∈ b.startChains), decide (c ∈ b.endChains)⟩) := by
    rw [saveChain]
  refine ⟨t1 ++ (t2 ++ t3), ?_, ?_⟩
  · rw [hstep]
    simp only
    rw [ht3, ht2, ht1, List.append_assoc, List.append_assoc]
  · rw [hstep]
    refine ⟨?_, ?_, ?_, rfl, rfl⟩
    · simp only
      rw [ht3, ht2]
      exact DecOk_append _ _ _ _ (DecOk_append _ _ _ _ hd1)
    · simp only
      rw [ht3]
      exact DecOk_append _ _ _ _ hd2
    · simp only
      exact hd3

theorem saveChains_spec (b : Brain) (ordA ordB : chain → List Word) :
    ∀ (cs : List chain) (tbl : List fWord), ∃ t,
      (saveChains b ordA ordB tbl cs).1 = tbl ++ t ∧
      List.Forall₂
        (fun c fc => RecOk (saveChains b ordA ordB tbl cs).1 b ordA ordB c fc)
        cs (saveChains b ordA ordB tbl cs).2 := by
  intro cs
  induction cs with
  | nil =>
    intro tbl
    exact ⟨[], by simp [saveChains], by simp [saveChains]⟩
  | cons c cs ih =>
    intro tbl
    obtain ⟨t1, ht1, hrec⟩ := saveChain_spec b ordA ordB tbl c
    obtain ⟨t2, ht2, hall⟩ := ih (saveChain b ordA ordB tbl c).1
    have hstep : saveChains b ordA ordB tbl (c :: cs) =
        ((saveChains b ordA ordB (saveChain b ordA ordB tbl c).1 cs).1,
          (saveChain b ordA ordB tbl c).2 ::
            (saveChains b ordA ordB (saveChain b ordA ordB tbl c).1 cs).2) := by
      rw [saveChains]
    refine ⟨t1 ++ t2, ?_, ?_⟩
    · rw [hstep]
      simp only
      rw [ht2, ht1, List.append_assoc]
    · rw [hstep]
      simp only
      refine List.Forall₂.cons ?_ hall
      rw [ht2]
      exact RecOk_append _ t2 b ordA ordB c _ hrec

theorem makeChain_toList (c : chain) : makeChain c.toList = c := rfl

theorem loadChain_spec (tbl : List fWord) (b : Brain) (fc : fChain) (c : chain)
    (la lb : List Word)
    (hW : DecOk tbl fc.words c.toList)
    (hA : fc.wordsAfter.map (wordByIdx tbl) = la)
    (hB : fc.wordsBefore.map (wordByIdx tbl) = lb) :
    loadChain tbl b fc = .ok
      { wordChains := fun w =>
          if w ∈ c.toList then insert c (b.wordChains w) else b.wordChains w
        chains := insert c b.chains
        wordsAfter := fun c2 =>
          if c2 = c then b.wordsAfter c2 ∪ la.toFinset else b.wordsAfter c2
        wordsBefore := fun c2 =>
          if c2 = c then b.wordsBefore c2 ∪ lb.toFinset else b.wordsBefore c2
        startChains :=
          if fc.canStart then insert c b.startChains else b.startChains
        endChains :=
          if fc.canEnd then insert c b.endChains else b.endChains } := by
  have hlen : fc.words.length = chainLen := by
    have h := congrArg List.length hW.1
    rw [List.length_map] at h
    rw [h]
    rfl
  rw [loadChain, if_neg (by omega), hW.1, makeChain_toList, hA, hB]
  split <;> split <;> rfl

theorem loadChains_spec (tbl : List fWord) (B : Brain)
    (ordA ordB : chain → List Word) :
    ∀ (cs : List chain) (fcs : List fChain),
      List.Forall₂ (fun c fc => RecOk tbl B ordA ordB c fc) cs fcs →
      ∀ b0 : Brain, ∃ b2, loadChains tbl b0 fcs = .ok b2 ∧
        (∀ c, c ∈ b2.chains ↔ c ∈ b0.chains ∨ c ∈ cs) ∧
        (∀ c x, x ∈ b2.wordsBefore c ↔
          x ∈ b0.wordsBefore c ∨ (c ∈ cs ∧ x ∈ ordB c)) ∧
        (∀ c x, x ∈ b2.wordsAfter c ↔
          x ∈ b0.wordsAfter c ∨ (c ∈ cs ∧ x ∈ ordA c)) ∧
        (∀ c, c ∈ b2.startChains ↔
          c ∈ b0.startChains ∨ (c ∈ cs ∧ c ∈ B.startChains)) ∧
        (∀ c, c ∈ b2.endChains ↔
          c ∈ b0.endChains ∨ (c ∈ cs ∧ c ∈ B.endChains)) := by
  intro cs fcs hall
  induction hall with
  | nil =>
    intro b0
    exact ⟨b0, rfl, fun c => by simp, fun c x => by simp, fun c x => by simp,
      fun c => by simp, fun c => by simp⟩
  | @cons c fc cs fcs hrel hrest ih =>
    intro b0
    have hload := loadChain_spec tbl b0 fc c (ordA c) (ordB c) hrel.1
      hrel.2.1.1 hrel.2.2.1.1
    obtain ⟨b2, hb2, hch, hbef, haft, hst, hen⟩ := ih
      { wordChains := fun w =>
          if w ∈ c.toList then insert c (b0.wordChains w) else b0.wordChains w
        chains := insert c b0.chains
        wordsAfter := fun c2 =>
          if c2 = c then b0.wordsAfter c2 ∪ (ordA c).toFinset
          else b0.wordsAfter c2
        wordsBefore := fun c2 =>
          if c2 = c then b0.wordsBefore c2 ∪ (ordB c).toFinset
          else b0.wordsBefore c2
        startChains :=
          if fc.canStart then insert c b0.startChains else b0.startChains
        endChains :=
          if fc.canEnd then insert c b0.endChains else b0.endChains }
    refine ⟨b2, ?_, ?_, ?_, ?_, ?_, ?_⟩
    · rw [loadChains, hload]
      exact hb2
    · intro c2
      rw [hch c2]
      dsimp only
      rw [Finset.mem_insert]
      constructor
      · rintro ((rfl | h) | h)
        · exact Or.inr (List.mem_cons_self _ _)
        · exact Or.inl h
        · exact Or.inr (List.mem_cons_of_mem _ h)
      · rintro (h | h)
        · exact Or.inl (Or.inr h)
        · rcases List.mem_cons.mp h with rfl | h
          · exact Or.inl (Or.inl rfl)
          · exact Or.inr h
    · intro c2 x
      rw [hbef c2 x]
      dsimp only
      constructor
      · rintro (h | ⟨hcs, hx⟩)
        · split at h
          · next hceq =>
            subst hceq
            rcases Finset.mem_union.mp h with h | h
            · exact Or.inl h
            · exact Or.inr ⟨List.mem_cons_self _ _, List.mem_toFinset.mp h⟩
          · exact Or.inl h
        · exact Or.inr ⟨List.mem_cons_of_mem _ hcs, hx⟩
      · rintro (h | ⟨hmem, hx⟩)
        · refine Or.inl ?_
          split
          · exact Finset.mem_union_left _ h
          · exact h
        · rcases List.mem_cons.mp hmem with rfl | hcs
          · refine Or.inl ?_
            rw [if_pos rfl]
            exact Finset.mem_union_right _ (List.mem_toFinset.mpr hx)
          · exact Or.inr ⟨hcs, hx⟩
    · intro c2 x
      rw [haft c2 x]
      dsimp only
      constructor
      · rintro (h | ⟨hcs, hx⟩)
        · split at h
          · next hceq =>
            subst hceq
            rcases Finset.mem_union.mp h with h | h
            · exact Or.inl h
            · exact Or.inr ⟨List.mem_cons_self _ _, List.mem_toFinset.mp h⟩
          · exact Or.inl h
        · exact Or.inr ⟨List.mem_cons_of_mem _ hcs, hx⟩
      · rintro (h | ⟨hmem, hx⟩)
        · refine Or.inl ?_
          split
          · exact Finset.mem_union_left _ h
          · exact h
        · rcases List.mem_cons.mp hmem with rfl | hcs
          · refine Or.inl ?_
            rw [if_pos rfl]
            exact Finset.mem_union_right _ (List.mem_toFinset.mpr hx)
          · exact Or.inr ⟨hcs, hx⟩
    · intro c2
      rw [hst c2]
      dsimp only
      have hflag := hrel.2.2.2.1
      constructor
      · rintro (h | ⟨hcs, hB2⟩)
        · by_cases hP : c ∈ B.startChains
          · rw [hflag, decide_eq_true hP, if_pos rfl] at h
            rcases Finset.mem_insert.mp h with rfl | h
            · exact Or.inr ⟨List.mem_cons_self _ _, hP⟩
            · exact Or.inl h
          · rw [hflag, decide_eq_false hP] at h
            simp only [Bool.false_eq_true, if_false] at h
            exact Or.inl h
        · exact Or.inr ⟨List.mem_cons_of_mem _ hcs, hB2⟩
      · rintro (h | ⟨hmem, hB2⟩)
        · refine Or.inl ?_
          split
          · exact Finset.mem_insert_of_mem h
          · exact h
        · rcases List.mem_cons.mp hmem with rfl | hcs
          · refine Or.inl ?_
            rw [hflag, decide_eq_true hB2, if_pos rfl]
            exact Finset.mem_insert_self _ _
          · exact Or.inr ⟨hcs, hB2⟩
    · intro c2
      rw [hen c2]
      dsimp only
      have hflag := hrel.2.2.2.2
      constructor
      · rintro (h | ⟨hcs, hB2⟩)
        · by_cases hP : c ∈ B.endChains
          · rw [hflag, decide_eq_true hP, if_pos rfl] at h
            rcases Finset.mem_insert.mp h with rfl | h
            · exact Or.inr ⟨List.mem_cons_self _ _, hP⟩
            · exact Or.inl h
          · rw [hflag, decide_eq_false hP] at h
            simp only [Bool.false_eq_true, if_false] at h
            exact Or.inl h
        · exact Or.inr ⟨List.mem_cons_of_mem _ hcs, hB2⟩
      · rintro (h | ⟨hmem, hB2⟩)
        · refine Or.inl ?_
          split
          · exact Finset.mem_insert_of_mem h
          · exact h
        · rcases List.mem_cons.mp hmem with rfl | hcs
          · refine Or.inl ?_
            rw [hflag, decide_eq_true hB2, if_pos rfl]
            exact Finset.mem_insert_self _ _
          · exact Or.inr ⟨hcs, hB2⟩

/-- Claim C1: snapshot round-trip.  For every Brain satisfying the §3
invariants, decoding the byte stream written by Save (magic prefix plus
payload, under any msgpack encoder/decoder pair that round-trips the
encoded record) yields a Brain whose chains, wordsBefore, wordsAfter,
startChains and endChains are identical to the original's, for every
enumeration order of chains and of the per-chain word sets used during
encoding. -/
theorem claim_C1_save_load_roundtrip
    (b : Brain) (ord : List chain) (ordA ordB : chain → List Word)
    (marshal : fBrain → List Nat) (unmarshal : List Nat → Option fBrain)
    (hmu : unmarshal (marshal (Save b ord ordA ordB)) =
      some (Save b ord ordA ordB))
    (hscs : b.startChains ⊆ b.chains) (hecs : b.endChains ⊆ b.chains)
    (hwb : ∀ c, (b.wordsBefore c).Nonempty → c ∈ b.chains)
    (hwa : ∀ c, (b.wordsAfter c).Nonempty → c ∈ b.chains)
    (hord : ∀ c, c ∈ ord ↔ c ∈ b.chains)
    (hA : ∀ c x, x ∈ ordA c ↔ x ∈ b.wordsAfter c)
    (hB : ∀ c x, x ∈ ordB c ↔ x ∈ b.wordsBefore c) :
    ∃ b2, LoadBrain unmarshal (SaveBytes marshal b ord ordA ordB) = .ok b2 ∧
      b2.chains = b.chains ∧ b2.wordsBefore = b.wordsBefore ∧
      b2.wordsAfter = b.wordsAfter ∧ b2.startChains = b.startChains ∧
      b2.endChains = b.endChains := by
  have hmag : fMagic.length = 4 := rfl
  have htake : (fMagic ++ marshal (Save b ord ordA ordB)).take 4 = fMagic := by
    rw [← hmag, List.take_left]
  have hdrop : (fMagic ++ marshal (Save b ord ordA ordB)).drop 4 =
      marshal (Save b ord ordA ordB) := by
    rw [← hmag, List.drop_left]
  have hnotshort : ¬((fMagic ++ marshal (Save b ord ordA ordB)).length < 4 ∨
      (fMagic ++ marshal (Save b ord ordA ordB)).take 4 ≠ fMagic) := by
    push_neg
    refine ⟨?_, htake⟩
    rw [List.length_append, hmag]
    omega
  obtain ⟨t, ht, hall⟩ := saveChains_spec b ordA ordB ord []
  obtain ⟨b2, hb2, hch, hbef, haft, hst, hen⟩ :=
    loadChains_spec (saveChains b ordA ordB [] ord).1 b ordA ordB ord
      (saveChains b ordA ordB [] ord).2 hall NewBrain
  refine ⟨b2, ?_, ?_, ?_, ?_, ?_, ?_⟩
  · rw [SaveBytes, LoadBrain, if_neg hnotshort, hdrop, hmu]
    show LoadBrainData (Save b ord ordA ordB) = .ok b2
    rw [LoadBrainData, if_neg (by simp [Save])]
    exact hb2
  · apply Finset.ext
    intro c
    rw [hch c, hord c]
    simp [NewBrain]
  · funext c
    apply Finset.ext
    intro x
    rw [hbef c x]
    simp only [NewBrain, Finset.not_mem_empty, false_or]
    constructor
    · rintro ⟨-, hx⟩
      exact (hB c x).mp hx
    · intro hx
      exact ⟨(hord c).mpr (hwb c ⟨x, hx⟩), (hB c x).mpr hx⟩
  · funext c
    apply Finset.ext
    intro x
    rw [haft c x]
    simp only [NewBrain, Finset.not_mem_empty, false_or]
    constructor
    · rintro ⟨-, hx⟩
      exact (hA c x).mp hx
    · intro hx
      exact ⟨(hord c).mpr (hwa c ⟨x, hx⟩), (hA c x).mpr hx⟩
  · apply Finset.ext
    intro c
    rw [hst c]
    simp only [NewBrain, Finset.not_mem_empty, false_or]
    constructor
    · rintro ⟨-, hx⟩
      exact hx
    · intro hx
      exact ⟨(hord c).mpr (hscs hx), hx⟩
  · apply Finset.ext
    intro c
    rw [hen c]
    simp only [NewBrain, Finset.not_mem_empty, false_or]
    constructor
    · rintro ⟨-, hx⟩
      exact hx
    · intro hx
      exact ⟨(hord c).mpr (hecs hx), hx⟩

/-- Witness for C1 at a concrete instance: the empty brain round-trips. -/
theorem claim_C1_witness :
    ∃ b2, LoadBrain
        (fun _ => some (Save NewBrain [] (fun _ => []) (fun _ => [])))
        (SaveBytes (fun _ => []) NewBrain [] (fun _ => []) (fun _ => [])) =
          .ok b2 ∧
      b2.chains = NewBrain.chains ∧ b2.wordsBefore = NewBrain.wordsBefore ∧
      b2.wordsAfter = NewBrain.wordsAfter ∧
      b2.startChains = NewBrain.startChains ∧
      b2.endChains = NewBrain.endChains :=
  claim_C1_save_load_roundtrip NewBrain [] (fun _ => []) (fun _ => [])
    (fun _ => []) (fun _ => some (Save NewBrain [] (fun _ => []) (fun _ => [])))
    rfl (by simp [NewBrain]) (by simp [NewBrain])
    (fun c h => by simp [NewBrain] at h) (fun c h => by simp [NewBrain] at h)
    (fun c => by simp [NewBrain]) (fun c x => by simp [NewBrain])
    (fun c x => by simp [NewBrain])

end GHal
